import Mathlib

/-!
Verification development for the flatgeobuf Go library (packed Hilbert
R-Tree spatial index and FlatGeobuf file reader/writer).

The definitions below are shallow embeddings of the Go source:

* `GoFloat`, `Box` embed `packedrtree/box.go` (src/unnamed/part_013);
* the Hilbert machinery embeds `packedrtree/hilbert.go` (src/unnamed/part_008);
* `levelify`, `size`, `noo`, `New`, `searchLoop`, `Seek` embed
  `packedrtree/packedrtree.go` (src/unnamed/part_010);
* the file writer definitions embed `flatgeobuf/file_writer.go`;
* the reader definitions embed `reader.go`.

Modelling conventions, used consistently:

* Go `float64` values are modelled by `GoFloat`: an exact rational,
  an infinity, or NaN.  All concrete inputs used in theorems are chosen
  so that every float operation the Go code performs on them is exact
  (small integers and halves), making the rational model agree with
  IEEE 754 double arithmetic on those inputs.
* Go `int`/`int64` are modelled as `Int` with the source's explicit
  overflow guards kept (64-bit platform, `math.MaxInt = 2^63 - 1`).
  Go `uint32` bit operations are on `Nat` with explicit `% 2^32`
  where a left shift may overflow 32 bits.
* A Go runtime abort (index out of range, explicit textPanic) is a
  distinct outcome constructor, separate from a returned `error`.
* Go slices are Lean lists; out-of-range access maps to the abort
  outcome.
-/

namespace FGB

/-- Model of a Go float64: NaN, a signed infinity (`inf true` is plus
infinity), or a finite value represented exactly as a rational. -/
inductive GoFloat where
  | nan : GoFloat
  | inf : Bool → GoFloat
  | fin : ℚ → GoFloat
deriving DecidableEq, Repr

namespace GoFloat

/-- Go float comparison x less-than y (false whenever either side is NaN,
per IEEE 754). -/
def lt : GoFloat → GoFloat → Bool
  | nan, _ => false
  | _, nan => false
  | inf s, inf t => !s && t
  | inf s, fin _ => !s
  | fin _, inf t => t
  | fin p, fin q => decide (p < q)

/-- Go float negation. -/
def neg : GoFloat → GoFloat
  | nan => nan
  | inf s => inf (!s)
  | fin q => fin (-q)

/-- Go float addition; exact on finite rationals (IEEE agrees whenever
the true sum is representable, which holds for every input our theorems
evaluate). -/
def add : GoFloat → GoFloat → GoFloat
  | nan, _ => nan
  | _, nan => nan
  | inf s, inf t => if s = t then inf s else nan
  | inf s, fin _ => inf s
  | fin _, inf t => inf t
  | fin p, fin q => fin (p + q)

/-- Go float subtraction, via addition of the negation. -/
def sub (x y : GoFloat) : GoFloat := add x (neg y)

/-- Go float multiplication; exact on finite rationals for the inputs
our theorems evaluate. -/
def mul : GoFloat → GoFloat → GoFloat
  | nan, _ => nan
  | _, nan => nan
  | inf s, inf t => inf (s = t)
  | inf s, fin q => if q = 0 then nan else inf (s = decide (0 < q))
  | fin q, inf s => if q = 0 then nan else inf (s = decide (0 < q))
  | fin p, fin q => fin (p * q)

/-- Go float division; exact on finite rationals for the inputs our
theorems evaluate, with the IEEE special cases for zero divisors and
infinities. -/
def div : GoFloat → GoFloat → GoFloat
  | nan, _ => nan
  | _, nan => nan
  | inf _, inf _ => nan
  | inf s, fin q => if q < 0 then inf (!s) else inf s
  | fin _, inf _ => fin 0
  | fin p, fin q =>
      if q = 0 then (if p = 0 then nan else inf (decide (0 < p))) else fin (p / q)

/-- Model of math.Floor. -/
def floor : GoFloat → GoFloat
  | nan => nan
  | inf s => inf s
  | fin q => fin (Int.floor q : ℤ)

/-- Model of the Go conversion uint32(f) for a float64 f.  For finite f
in [0, 2^32) this is the exact truncation; for other inputs the Go
language specification leaves the result implementation-specific, and we
pick a fixed convention (never relied upon by any theorem). -/
def toUint32 : GoFloat → ℕ
  | nan => 0
  | inf _ => 0
  | fin q => ((Int.floor q) % 2 ^ 32).toNat

end GoFloat

/-- Embeds packedrtree.Box (box.go): a 2D bounding box of four float64
extremes. -/
structure Box where
  XMin : GoFloat
  YMin : GoFloat
  XMax : GoFloat
  YMax : GoFloat
deriving DecidableEq, Repr

/-- Embeds packedrtree.EmptyBox: mins at plus infinity, maxes at minus
infinity. -/
def EmptyBox : Box :=
  { XMin := .inf true, YMin := .inf true, XMax := .inf false, YMax := .inf false }

/-- The Go zero value of the Box struct (all fields 0). -/
def zeroBox : Box := { XMin := .fin 0, YMin := .fin 0, XMax := .fin 0, YMax := .fin 0 }

namespace Box

/-- Embeds Box.Width: XMax - XMin. -/
def Width (b : Box) : GoFloat := b.XMax.sub b.XMin

/-- Embeds Box.Height: YMax - YMin. -/
def Height (b : Box) : GoFloat := b.YMax.sub b.YMin

/-- Embeds Box.midX: (XMin + XMax) / 2. -/
def midX (b : Box) : GoFloat := (b.XMin.add b.XMax).div (.fin 2)

/-- Embeds Box.midY exactly as written in the source, which computes
(YMin + YMin) / 2 rather than the arithmetic mean of YMin and YMax. -/
def midY (b : Box) : GoFloat := (b.YMin.add b.YMin).div (.fin 2)

/-- Embeds Box.Expand: four independent conditional updates widening the
receiver to contain the argument. -/
def Expand (b c : Box) : Box :=
  let b := if c.XMin.lt b.XMin then { b with XMin := c.XMin } else b
  let b := if c.YMin.lt b.YMin then { b with YMin := c.YMin } else b
  let b := if b.XMax.lt c.XMax then { b with XMax := c.XMax } else b
  let b := if b.YMax.lt c.YMax then { b with YMax := c.YMax } else b
  b

/-- Embeds Box.ExpandXY exactly as written in the source: for each axis a
single if/else-if, so at most one of the min and max bounds is updated
per axis. -/
def ExpandXY (b : Box) (x y : GoFloat) : Box :=
  let b :=
    if x.lt b.XMin then { b with XMin := x }
    else if b.XMax.lt x then { b with XMax := x }
    else b
  let b :=
    if y.lt b.YMin then { b with YMin := y }
    else if b.YMax.lt y then { b with YMax := y }
    else b
  b

/-- Embeds Box.intersects: the early-return comparison chain of the
source. -/
def intersects (b o : Box) : Bool :=
  if b.XMax.lt o.XMin then false
  else if b.YMax.lt o.YMin then false
  else if o.XMax.lt b.XMin then false
  else if o.YMax.lt b.YMin then false
  else true

end Box

/-- A closed box containing exactly the point (x, y): the union target
that the specification says expandPoint must reach. -/
def pointBox (x y : GoFloat) : Box := { XMin := x, YMin := y, XMax := x, YMax := y }

example : Box.ExpandXY EmptyBox (.fin 0) (.fin 0)
    = { XMin := .fin 0, YMin := .fin 0, XMax := .inf false, YMax := .inf false } := by
  decide

example : Box.Expand EmptyBox (pointBox (.fin 0) (.fin 0)) = pointBox (.fin 0) (.fin 0) := by
  decide

/-- Embeds packedrtree.Ref (packedrtree.go): a feature reference, a
bounding box plus an int64 byte offset into the data section. -/
structure Ref where
  box : Box
  Offset : ℤ
deriving DecidableEq, Repr

/-- A 32-bit left shift with Go uint32 wrap-around. -/
def u32shl (x n : ℕ) : ℕ := (x <<< n) % 2 ^ 32

/-- Embeds hilbertOfXY (hilbert.go), the public-domain Hilbert XY-to-index
bit-twiddling over uint32 lanes; inputs are reduced mod 2^32 as the Go
parameter type dictates. -/
def hilbertOfXY (x0 y0 : ℕ) : ℕ :=
  let x := x0 % 2 ^ 32
  let y := y0 % 2 ^ 32
  let a := x ^^^ y
  let b := 0xFFFF ^^^ a
  let c := 0xFFFF ^^^ (x ||| y)
  let d := x &&& (y ^^^ 0xFFFF)
  let A := a ||| (b >>> 1)
  let B := (a >>> 1) ^^^ a
  let C := ((c >>> 1) ^^^ (b &&& (d >>> 1))) ^^^ c
  let D := ((a &&& (c >>> 1)) ^^^ (d >>> 1)) ^^^ d
  let a := A
  let b := B
  let c := C
  let d := D
  let A := (a &&& (a >>> 2)) ^^^ (b &&& (b >>> 2))
  let B := (a &&& (b >>> 2)) ^^^ (b &&& ((a ^^^ b) >>> 2))
  let C := C ^^^ ((a &&& (c >>> 2)) ^^^ (b &&& (d >>> 2)))
  let D := D ^^^ ((b &&& (c >>> 2)) ^^^ ((a ^^^ b) &&& (d >>> 2)))
  let a := A
  let b := B
  let c := C
  let d := D
  let A := (a &&& (a >>> 4)) ^^^ (b &&& (b >>> 4))
  let B := (a &&& (b >>> 4)) ^^^ (b &&& ((a ^^^ b) >>> 4))
  let C := C ^^^ ((a &&& (c >>> 4)) ^^^ (b &&& (d >>> 4)))
  let D := D ^^^ ((b &&& (c >>> 4)) ^^^ ((a ^^^ b) &&& (d >>> 4)))
  let a := A
  let b := B
  let c := C
  let d := D
  let C := C ^^^ ((a &&& (c >>> 8)) ^^^ (b &&& (d >>> 8)))
  let D := D ^^^ ((b &&& (c >>> 8)) ^^^ ((a ^^^ b) &&& (d >>> 8)))
  let a := C ^^^ (C >>> 1)
  let b := D ^^^ (D >>> 1)
  let i0 := x ^^^ y
  let i1 := b ||| (0xFFFF ^^^ (i0 ||| a))
  let i0 := (i0 ||| u32shl i0 8) &&& 0x00FF00FF
  let i0 := (i0 ||| u32shl i0 4) &&& 0x0F0F0F0F
  let i0 := (i0 ||| u32shl i0 2) &&& 0x33333333
  let i0 := (i0 ||| u32shl i0 1) &&& 0x55555555
  let i1 := (i1 ||| u32shl i1 8) &&& 0x00FF00FF
  let i1 := (i1 ||| u32shl i1 4) &&& 0x0F0F0F0F
  let i1 := (i1 ||| u32shl i1 2) &&& 0x33333333
  let i1 := (i1 ||| u32shl i1 1) &&& 0x55555555
  u32shl i1 1 ||| i0

/-- The pair (hx, hy) that hilbertOfCenter (hilbert.go) passes to
hilbertOfXY, translated exactly as written in the source: the branch
guarded by eh being nonzero divides by ey and assigns the value to hx
(not hy), so hy is never assigned after its zero initialization. -/
def hilbertOfCenterArgs (b : Box) (ex ey ew eh : GoFloat) : ℕ × ℕ :=
  let hx : ℕ := 0
  let hx :=
    if ew ≠ GoFloat.fin 0 then
      (((GoFloat.fin 65535).mul ((b.midX.sub ex).div ew)).floor).toUint32
    else hx
  let hy : ℕ := 0
  let hx :=
    if eh ≠ GoFloat.fin 0 then
      (((GoFloat.fin 65535).mul ((b.midY.sub ey).div ey)).floor).toUint32
    else hx
  (hx, hy)

/-- Embeds hilbertOfCenter (hilbert.go). -/
def hilbertOfCenter (b : Box) (ex ey ew eh : GoFloat) : ℕ :=
  hilbertOfXY (hilbertOfCenterArgs b ex ey ew eh).1 (hilbertOfCenterArgs b ex ey ew eh).2

/-- Embeds hilbertSortable.Less: element i sorts before element j when
its Hilbert index is strictly greater. -/
def hilbertLess (x y w h : GoFloat) (u v : Ref) : Bool :=
  decide (hilbertOfCenter v.box x y w h < hilbertOfCenter u.box x y w h)

/-- Insertion of an element into a list sorted by the Boolean relation
le, keeping earlier elements first on ties. -/
def insertBy (le : α → α → Bool) (x : α) : List α → List α
  | [] => [x]
  | y :: ys => if le x y then x :: y :: ys else y :: insertBy le x ys

/-- Insertion sort by the Boolean relation le. -/
def sortBy (le : α → α → Bool) : List α → List α
  | [] => []
  | x :: xs => insertBy le x (sortBy le xs)

/-- Embeds HilbertSort (hilbert.go).  Go's sort.Sort is an unstable
comparison sort driven by hilbertSortable.Less; we model it as a
comparison sort by the same Less function (u may precede v unless Less
says v must precede u), which coincides with any correct comparison
sort whenever all keys are distinct, as in every input our theorems
evaluate. -/
def HilbertSort (refs : List Ref) (bounds : Box) : List Ref :=
  sortBy
    (fun u v => !(hilbertLess bounds.XMin bounds.YMin bounds.Width bounds.Height v u))
    refs

/-- The Hilbert Y-coordinate required by the specification: the
arithmetic mean of YMin and YMax, shifted by the extent origin ey,
divided by the extent height eh, scaled by 2^16 - 1 and floored;
clamped to 0 when eh = 0. -/
def specHilbertY (b : Box) (ey eh : GoFloat) : ℕ :=
  if eh = GoFloat.fin 0 then 0
  else ((((((b.YMin.add b.YMax).div (.fin 2)).sub ey).div eh).mul (.fin 65535)).floor).toUint32

theorem GoFloat.add_fin (p q : ℚ) : (GoFloat.fin p).add (.fin q) = .fin (p + q) := rfl

theorem GoFloat.sub_fin (p q : ℚ) : (GoFloat.fin p).sub (.fin q) = .fin (p + -q) := rfl

theorem GoFloat.mul_fin (p q : ℚ) : (GoFloat.fin p).mul (.fin q) = .fin (p * q) := rfl

theorem GoFloat.div_fin (p q : ℚ) (h : q ≠ 0) :
    (GoFloat.fin p).div (.fin q) = .fin (p / q) := by
  simp [GoFloat.div, h]

theorem GoFloat.floor_fin (q : ℚ) : (GoFloat.fin q).floor = .fin (Int.floor q : ℤ) := rfl

theorem GoFloat.toUint32_fin (q : ℚ) :
    (GoFloat.fin q).toUint32 = ((Int.floor q) % 2 ^ 32).toNat := rfl

example : (hilbertOfCenterArgs
    { XMin := .fin 0, YMin := .fin 2, XMax := .fin 0, YMax := .fin 4 }
    (.fin 0) (.fin 1) (.fin 2) (.fin 2)).2 = 0 := by decide

example : specHilbertY
    { XMin := .fin 0, YMin := .fin 2, XMax := .fin 0, YMax := .fin 4 }
    (.fin 1) (.fin 2) = 65535 := by
  norm_num [specHilbertY, Box.midY, GoFloat.add_fin, GoFloat.sub_fin, GoFloat.mul_fin,
    GoFloat.div_fin, GoFloat.floor_fin, GoFloat.toUint32_fin]
  decide

/-- Kinds of value-returned Go errors relevant to the embedded code. -/
inductive GoErr where
  | nodeCountOverflow
  | indexSizeOverflow
  | endOffsetOverflow
  | shortRead
  | eof
  | ioErr
  | featureLenTooSmall
  | headerNotCalled
  | stateErr
  | closed
  | notSizePrefixed
  | bufferTooSmall
  | trappedFault
  | writePastIndex
  | nodeSizeZero
  | indexNotWritten
  | allFeaturesWritten
  | countMismatch
  | nodeSizeMismatch
deriving DecidableEq, Repr

/-- How an embedded Go computation can stop without producing a value:
a runtime or textPanic abort, divergence (an infinite loop in the
source), or a value-returned error. -/
inductive GoStop where
  | abort
  | diverge
  | err : GoErr → GoStop
deriving DecidableEq, Repr

/-- math.MaxInt = math.MaxInt64 on the 64-bit platforms the library
targets. -/
def maxInt : ℤ := 2 ^ 63 - 1

/-- numNodeBytes: unsafe.Sizeof(node) = four float64 plus one int64. -/
def numNodeBytes : ℤ := 40

/-- The per-level node-count chain shared by the loops in size and
levelify: repeatedly apply ceiling division by nodeSize, collecting
each value, stopping after a value of 1.  The fuel argument makes the
recursion structural; `none` models the infinite loop the Go code
enters when the chain never reaches 1 (possible only for inputs that
validateParams rejects). -/
def ceilChain (nodeSize : ℕ) : ℕ → ℕ → Option (List ℕ)
  | 0, _ => none
  | fuel + 1, n =>
    let m := (n + nodeSize - 1) / nodeSize
    if m = 1 then some [1] else (ceilChain nodeSize fuel m).map (m :: ·)

/-- Embeds totalNodes (packedrtree.go): guarded addition of leaf and
internal node counts. -/
def totalNodes (numRefs numInternal : ℕ) : Except GoStop ℕ :=
  if (numInternal : ℤ) > maxInt - (numRefs : ℤ) then .error (.err .nodeCountOverflow)
  else .ok (numRefs + numInternal)

/-- Embeds the private size function (packedrtree.go): total index byte
size with both overflow guards. -/
def size (numRefs nodeSize : ℕ) : Except GoStop ℤ :=
  match ceilChain nodeSize numRefs numRefs with
  | none => .error .diverge
  | some chain =>
    match totalNodes numRefs chain.sum with
    | .error e => .error e
    | .ok numNodes =>
      if (numNodes : ℤ) > maxInt / numNodeBytes then .error (.err .indexSizeOverflow)
      else .ok ((numNodes : ℤ) * numNodeBytes)

/-- Embeds validateParams (packedrtree.go); Go panics map to abort.
Parameters are naturals (the Go ints are non-negative in every reachable
call; negative values would also just panic). -/
def validateParams (numRefs nodeSize : ℕ) : Except GoStop Unit :=
  if numRefs < 1 then .error .abort
  else if nodeSize < 2 then .error .abort
  else .ok ()

/-- Embeds Size (packedrtree.go): validateParams then size. -/
def Size (numRefs nodeSize : ℕ) : Except GoStop ℤ :=
  match validateParams numRefs nodeSize with
  | .error e => .error e
  | .ok _ => size numRefs nodeSize

/-- Embeds levelRange (packedrtree.go); `stop` is the field the source
calls `end`, a Lean keyword. -/
structure LevelRange where
  start : ℕ
  stop : ℕ
deriving DecidableEq, Repr, Inhabited

instance {ε α : Type} [DecidableEq ε] [DecidableEq α] : DecidableEq (Except ε α) := fun a b =>
  match a, b with
  | .ok x, .ok y => decidable_of_iff (x = y) (by simp)
  | .error e, .error f => decidable_of_iff (e = f) (by simp)
  | .ok _, .error _ => isFalse (by simp)
  | .error _, .ok _ => isFalse (by simp)

/-- The running-subtraction loop of levelify: start indices per level. -/
def levelIndicesFrom (rem : ℕ) : List ℕ → List ℕ
  | [] => []
  | c :: cs => (rem - c) :: levelIndicesFrom (rem - c) cs

/-- Embeds levelify (packedrtree.go): per-level node counts, total node
count with overflow guard, start indices by running subtraction, then
the list of level ranges (leaves first, root last). -/
def levelify (numRefs nodeSize : ℕ) : Except GoStop (List LevelRange) :=
  match ceilChain nodeSize numRefs numRefs with
  | none => .error .diverge
  | some chain =>
    let nodesPerLevel := numRefs :: chain
    match totalNodes numRefs chain.sum with
    | .error e => .error e
    | .ok numNodes =>
      let levelIndices := levelIndicesFrom numNodes nodesPerLevel
      .ok (List.zipWith (fun i c => LevelRange.mk i (i + c)) levelIndices nodesPerLevel)

/-- The Go zero value of a node/Ref. -/
def zeroRef : Ref := { box := zeroBox, Offset := 0 }

/-- Embeds the packedRTree record (packedrtree.go) minus its strategy
function members, which the search functions below receive directly. -/
structure PackedRTree where
  numRefs : ℕ
  nodeSize : ℕ
  levels : List LevelRange
  nodes : List Ref
deriving DecidableEq, Repr

/-- Embeds noo (packedrtree.go): validate, levelify, and allocate the
zeroed node array of length levels[0].end. -/
def noo (numRefs nodeSize : ℕ) : Except GoStop PackedRTree :=
  match validateParams numRefs nodeSize with
  | .error e => .error e
  | .ok _ =>
    match levelify numRefs nodeSize with
    | .error e => .error e
    | .ok levels =>
      .ok { numRefs := numRefs, nodeSize := nodeSize, levels := levels,
            nodes := List.replicate (levels.headI.stop) zeroRef }

/-- Embeds ticket (packedrtree.go). -/
structure Ticket where
  nodeIndex : ℤ
  level : ℤ
deriving DecidableEq, Repr

/-- Embeds Result (packedrtree.go). -/
structure Result where
  Offset : ℤ
  RefIndex : ℤ
deriving DecidableEq, Repr

/-- Embeds stackPush: append at the end of the slice. -/
def stackPush (tq : List Ticket) (t : Ticket) : List Ticket := tq ++ [t]

/-- Embeds stackPop: remove and return the last element; popping an
empty bag is a Go abort, surfaced as none. -/
def stackPop (tq : List Ticket) : Option (Ticket × List Ticket) :=
  match tq.getLast? with
  | none => none
  | some t => some (t, tq.dropLast)

/-- Embeds heapPush.  The bag is modelled as the plain list of pending
tickets; the heap layout is abstracted away because heapPop below
extracts a minimum directly. -/
def heapPush (tq : List Ticket) (t : Ticket) : List Ticket := tq ++ [t]

/-- Embeds heapPop: container/heap pops a ticket of minimal nodeIndex.
We take the first occurrence of the minimum, which agrees with Go's
heap whenever pending nodeIndex values are distinct — an invariant of
every search this development reasons about. -/
def heapPop : List Ticket → Option (Ticket × List Ticket)
  | [] => none
  | [t] => some (t, [])
  | t :: u :: rest =>
    match heapPop (u :: rest) with
    | some (m, r) =>
      if m.nodeIndex < t.nodeIndex then some (m, t :: r) else some (t, u :: rest)
    | none => some (t, u :: rest)

/-- The integer positions [i, e) scanned by one search iteration. -/
def posList (i e : ℤ) : List ℤ := (List.range (e - i).toNat).map (fun k => i + k)

/-- Overwrite the run of entries of a list starting at index i. -/
def setRange (nodes : List Ref) (i : ℕ) (vals : List Ref) : List Ref :=
  nodes.take i ++ vals ++ nodes.drop (i + vals.length)

/-- The inner position loop of packedRTree.search: scan nodes[pos] for
pos in the given list, collecting leaf results and pushing child
tickets; none models the Go abort on an out-of-range node access. -/
def scanNodes (b : Box) (isLeaf : Bool) (leaf0 : ℤ) (lvl : ℤ)
    (push : List Ticket → Ticket → List Ticket) (nodes : List Ref) :
    List ℤ → List Ticket → List Result → Option (List Ticket × List Result)
  | [], bag, acc => some (bag, acc)
  | pos :: rest, bag, acc =>
    if pos < 0 then none
    else
      match nodes.get? pos.toNat with
      | none => none
      | some n =>
        if b.intersects n.box then
          if isLeaf then
            scanNodes b isLeaf leaf0 lvl push nodes rest bag
              (acc ++ [{ Offset := n.Offset, RefIndex := pos - leaf0 }])
          else
            scanNodes b isLeaf leaf0 lvl push nodes rest
              (push bag { nodeIndex := n.Offset, level := lvl - 1 }) acc
        else scanNodes b isLeaf leaf0 lvl push nodes rest bag acc

/-- Outcomes of the embedded generic search loop: success with results
and final fetch state, a value-returned error (only ever produced by
the fetch callback), a Go runtime abort, or fuel exhaustion (which no
theorem below ever reaches). -/
inductive SearchOut (σ : Type) where
  | ok : List Result → σ → SearchOut σ
  | err : GoErr → SearchOut σ
  | abort : SearchOut σ
  | fuelOut : SearchOut σ
deriving DecidableEq, Repr

/-- Embeds packedRTree.search (packedrtree.go): pop a ticket, clip the
node range to the ticket's level, fetch the range if a fetch callback
is configured, scan the range, and stop once the bag is empty.  The
pop and push strategies and the optional fetch are the same parameters
the Go code carries in its packedRTree record. -/
def searchLoop (ns : ℕ) (levels : List LevelRange) (b : Box)
    (pop : List Ticket → Option (Ticket × List Ticket))
    (push : List Ticket → Ticket → List Ticket)
    (fetch : Option (σ → ℤ → ℤ → Except GoErr (σ × List Ref))) :
    ℕ → List Ticket → List Ref → σ → List Result → SearchOut σ
  | 0, _, _, _, _ => .fuelOut
  | fuel + 1, bag, nodes, s, acc =>
    match pop bag with
    | none => .abort
    | some (t, bag1) =>
      if t.level < 0 then .abort
      else
        match levels.get? t.level.toNat, levels.get? 0 with
        | some lv, some lv0 =>
          let e0 := t.nodeIndex + (ns : ℤ)
          let e := if (lv.stop : ℤ) < e0 then (lv.stop : ℤ) else e0
          let isLeaf := decide ((lv0.start : ℤ) ≤ t.nodeIndex)
          match fetch with
          | none =>
            match scanNodes b isLeaf (lv0.start : ℤ) t.level push nodes
                (posList t.nodeIndex e) bag1 acc with
            | none => .abort
            | some (bag2, acc2) =>
              if bag2 = [] then .ok acc2 s
              else searchLoop ns levels b pop push fetch fuel bag2 nodes s acc2
          | some f =>
            match f s t.nodeIndex e with
            | .error ge => .err ge
            | .ok (s', vals) =>
              if t.nodeIndex < 0 then .abort
              else
                let nodes' := setRange nodes t.nodeIndex.toNat vals
                match scanNodes b isLeaf (lv0.start : ℤ) t.level push nodes'
                    (posList t.nodeIndex e) bag1 acc with
                | none => .abort
                | some (bag2, acc2) =>
                  if bag2 = [] then .ok acc2 s'
                  else searchLoop ns levels b pop push fetch fuel bag2 nodes' s' acc2
        | _, _ => .abort

/-- Fuel that strictly dominates the iteration count of every
terminating run of the search loop. -/
def searchFuel (ns levelCount : ℕ) : ℕ := (ns + 2) ^ (levelCount + 2)

/-- The in-memory (stack discipline, no fetch) instantiation of the
search loop, as run by PackedRTree.Search. -/
def searchMem (prt : PackedRTree) (b : Box) : SearchOut Unit :=
  searchLoop prt.nodeSize prt.levels b stackPop stackPush (σ := Unit) none
    (searchFuel prt.nodeSize prt.levels.length)
    [{ nodeIndex := 0, level := (prt.levels.length : ℤ) - 1 }]
    prt.nodes () []

/-- Embeds PackedRTree.Search: panics (none) whenever the inner search
fails in any way, returns the result list otherwise. -/
def Search (prt : PackedRTree) (b : Box) : Option (List Result) :=
  match searchMem prt b with
  | .ok rs _ => some rs
  | _ => none

/-- The inner do-while loop of New's internal-node generation: expand
the parent at the fixed index parentIdx with consecutive child nodes,
stopping after ns children or at the level end. -/
def expandRun (parentIdx ns stop : ℕ) : ℕ → ℕ → ℕ → List Ref → ℕ × List Ref
  | 0, _, ni, nodes => (ni, nodes)
  | fuel + 1, j, ni, nodes =>
    let parent := nodes.getD parentIdx zeroRef
    let child := nodes.getD ni zeroRef
    let nodes := nodes.set parentIdx { parent with box := parent.box.Expand child.box }
    let j := j + 1
    let ni := ni + 1
    if j = ns ∨ ni = stop then (ni, nodes) else expandRun parentIdx ns stop fuel j ni nodes

/-- The outer group loop of New's internal-node generation for one
level.  As in the source, parentIdx is computed once per level and
never advanced, so every group of the level overwrites the same parent
slot. -/
def buildLevel (parentIdx ns stop : ℕ) : ℕ → ℕ → List Ref → List Ref
  | 0, _, nodes => nodes
  | fuel + 1, ni, nodes =>
    if ni < stop then
      let nodes := nodes.set parentIdx { box := EmptyBox, Offset := (ni : ℤ) }
      let (ni', nodes') := expandRun parentIdx ns stop (stop - ni) 0 ni nodes
      buildLevel parentIdx ns stop fuel ni' nodes'
    else nodes

/-- The level loop of New's internal-node generation: for each level i
from the leaves upward, fill the parents of level i+1 (with the fixed
parent index levels[i+1].start, as in the source). -/
def buildInternal (ns : ℕ) : List (LevelRange × LevelRange) → List Ref → List Ref
  | [], nodes => nodes
  | (lv, lvNext) :: rest, nodes =>
    buildInternal ns rest (buildLevel lvNext.start ns lv.stop lv.stop lv.start nodes)

/-- Embeds New (packedrtree.go): noo, copy the refs into the leaf
slots, then generate the internal nodes bottom-up. -/
def New (refs : List Ref) (nodeSize : ℕ) : Except GoStop PackedRTree :=
  match noo refs.length nodeSize with
  | .error e => .error e
  | .ok prt =>
    let nodes := setRange prt.nodes prt.levels.headI.start refs
    let nodes := buildInternal prt.nodeSize (prt.levels.zip prt.levels.tail) nodes
    .ok { prt with nodes := nodes }

/-- Embeds Unmarshal (packedrtree.go) over the node-sequence model of
the stream: noo, then read exactly the node array from the stream
(short streams fail like io.ReadFull). -/
def Unmarshal (stream : List Ref) (numRefs nodeSize : ℕ) : Except GoStop PackedRTree :=
  match noo numRefs nodeSize with
  | .error e => .error e
  | .ok prt =>
    if stream.length < prt.nodes.length then .error (.err .shortRead)
    else .ok { prt with nodes := stream.take prt.nodes.length }

/-- The stream-position state threaded through a streaming Seek: the
current absolute offset and the chronological trace of the absolute
positions at which the stream is seeked or a read begins. -/
structure SeekState where
  offset : ℤ
  trace : List ℤ
deriving DecidableEq, Repr

/-- Embeds the fetch closure of Seek (packedrtree.go): seek forward or
backward by the relative distance to node i when not already there,
read nodes [i, j) from the stream, and advance the offset past them.
The byte-level little-endian node codec is abstracted into a stream of
nodes; offsets stay byte-valued (40 bytes per node). -/
def seekFetch (stream : List Ref) (startOffset : ℤ) :
    SeekState → ℤ → ℤ → Except GoErr (SeekState × List Ref) := fun s i j =>
  let target := startOffset + i * numNodeBytes
  let s : SeekState := { offset := target, trace := s.trace ++ [target] }
  if 0 ≤ i ∧ i ≤ j ∧ j ≤ (stream.length : ℤ) then
    .ok ({ s with offset := target + (j - i) * numNodeBytes },
         ((stream.drop i.toNat).take (j - i).toNat))
  else .error .shortRead

/-- Embeds Seek (packedrtree.go) over the node-sequence stream model:
record the start offset, size the index with its overflow guards,
run the min-heap streaming search with the fetch closure, then skip to
the end of the index when not already there. -/
def Seek (stream : List Ref) (startOffset : ℤ) (numRefs nodeSize : ℕ) (b : Box) :
    Except GoStop (List Result × SeekState) :=
  match size numRefs nodeSize with
  | .error e => .error e
  | .ok sz =>
    if sz > maxInt - startOffset then .error (.err .endOffsetOverflow)
    else
      let endOffset := startOffset + sz
      match noo numRefs nodeSize with
      | .error e => .error e
      | .ok prt =>
        match searchLoop prt.nodeSize prt.levels b heapPop heapPush
            (some (seekFetch stream startOffset))
            (searchFuel prt.nodeSize prt.levels.length)
            [{ nodeIndex := 0, level := (prt.levels.length : ℤ) - 1 }]
            prt.nodes { offset := startOffset, trace := [startOffset] } [] with
        | .ok rs s =>
          if endOffset ≠ s.offset then
            .ok (rs, { offset := endOffset, trace := s.trace ++ [endOffset] })
          else .ok (rs, s)
        | .err ge => .error (.err ge)
        | .abort => .error .abort
        | .fuelOut => .error .diverge

/-- The reader/writer state enum of reader.go and the stateful helper;
the low bit is the `invalid` in-transition marker. -/
def stUninit : ℕ := 0x00

/-- The invalid marker bit of the state enum. -/
def stInvalid : ℕ := 0x01

/-- State beforeMagic. -/
def stBeforeMagic : ℕ := 0x11

/-- State beforeHeader. -/
def stBeforeHeader : ℕ := 0x21

/-- State afterHeader. -/
def stAfterHeader : ℕ := 0x22

/-- State beforeIndex. -/
def stBeforeIndex : ℕ := 0x31

/-- State afterIndex. -/
def stAfterIndex : ℕ := 0x32

/-- State inData. -/
def stInData : ℕ := 0x42

/-- State eof. -/
def stEOF : ℕ := 0x52

/-- The underlying stream of a reader: a byte sequence with a cursor,
plus whether the dynamic io.Seeker / io.Closer interface checks
succeed. -/
structure ByteStream where
  bytes : List ℕ
  pos : ℕ
  seekable : Bool
  closable : Bool
deriving DecidableEq, Repr

/-- Model of io.ReadFull: read exactly n bytes or fail. -/
def ByteStream.readFull (s : ByteStream) (n : ℕ) : Except GoErr (List ℕ × ByteStream) :=
  if s.pos + n ≤ s.bytes.length then
    .ok ((s.bytes.drop s.pos).take n, { s with pos := s.pos + n })
  else .error .ioErr

/-- Model of the discard helper (reader.go): read and drop n bytes,
failing when the stream runs out. -/
def ByteStream.discard (s : ByteStream) (n : ℕ) : Except GoErr ByteStream :=
  if s.pos + n ≤ s.bytes.length then .ok { s with pos := s.pos + n }
  else .error .ioErr

/-- Model of an absolute seek (io.SeekStart). -/
def ByteStream.seekTo (s : ByteStream) (target : ℤ) : ByteStream :=
  { s with pos := target.toNat }

/-- Little-endian uint32 of the first four bytes
(flatbuffers.GetUint32). -/
def getUint32LE (b : List ℕ) : ℕ :=
  b.getD 0 0 + 256 * b.getD 1 0 + 65536 * b.getD 2 0 + 16777216 * b.getD 3 0

/-- Embeds flatgeobuf.Feature as far as the reader and writer touch it:
the size-prefixed table bytes with the table position, and the
geometry's flattened XY coordinate vector, which stands in for the
external flatbuffers schema facility that the specification declares
out of scope. -/
structure Feature where
  bytes : List ℕ
  pos : ℕ
  xy : List GoFloat
deriving DecidableEq, Repr

/-- Embeds the Reader struct (reader.go). -/
structure Reader where
  state : ℕ
  err : Option GoErr
  stream : ByteStream
  numFeatures : ℤ
  nodeSize : ℕ
  indexOffset : ℤ
  dataOffset : ℤ
  cachedIndex : Option PackedRTree
  featureIndex : ℤ
  featureOffset : ℤ
deriving DecidableEq, Repr

/-- Embeds Reader.toErr: latch the error; aborts (none) when already in
an error state, mirroring the textPanic there. -/
def Reader.toErr (r : Reader) (e : GoErr) : Option (Reader × GoErr) :=
  if r.err ≠ none then none else some ({ r with err := some e }, e)

/-- Embeds Reader.sanityCheckState as a predicate: true means the Go
code panics. -/
def badState (st : ℕ) : Bool := st &&& stInvalid = stInvalid

/-- Embeds Reader.toState: fail fast on a latched error, transition on
the expected state, abort on an invalid state, otherwise report the
unexpected-state error. -/
def Reader.toState (r : Reader) (expected tgt : ℕ) : Option (Reader × Option GoErr) :=
  if r.err ≠ none then some (r, r.err)
  else if r.state = expected then some ({ r with state := tgt }, none)
  else if badState r.state then none
  else some (r, some .stateErr)

/-- Embeds Reader.saveIndexOffset via saveGenericOffset: record the
current position once, only when the stream is seekable. -/
def Reader.saveIndexOffset (r : Reader) : Reader :=
  if r.indexOffset = 0 ∧ r.stream.seekable then
    { r with indexOffset := (r.stream.pos : ℤ) }
  else r

/-- Embeds Reader.saveDataOffset via saveGenericOffset. -/
def Reader.saveDataOffset (r : Reader) : Reader :=
  if r.dataOffset = 0 ∧ r.stream.seekable then
    { r with dataOffset := (r.stream.pos : ℤ) }
  else r

/-- Embeds Reader.readFeature: read the 4-byte little-endian length
prefix (rejecting values below 4), then the payload, producing the
feature table and advancing the feature cursor.  none models the abort
inside toErr. -/
def Reader.readFeature (r : Reader) : Option (Reader × Except GoErr Feature) :=
  match r.stream.readFull 4 with
  | .error _ =>
    match r.toErr .ioErr with
    | none => none
    | some (r', e) => some (r', .error e)
  | .ok (b, st1) =>
    let featureLen := getUint32LE b
    if featureLen < 4 then
      match r.toErr .featureLenTooSmall with
      | none => none
      | some (r', e) => some (r', .error e)
    else
      match st1.readFull featureLen with
      | .error _ =>
        match r.toErr .ioErr with
        | none => none
        | some (r', e) => some (r', .error e)
      | .ok (payload, st2) =>
        let tbl := b ++ payload
        let tblOffset := getUint32LE payload
        some ({ r with stream := st2,
                       featureIndex := r.featureIndex + 1,
                       featureOffset := r.featureOffset + 4 + (featureLen : ℤ) },
              .ok { bytes := tbl, pos := 4 + tblOffset, xy := [] })

/-- Embeds Reader.skipIndex: transition into the index, then seek or
drain past it (computing the index size when needed), then transition
out.  none models the Go aborts (failed io.Seeker type assertion,
Size panics). -/
def Reader.skipIndex (r : Reader) : Option (Reader × Option GoErr) :=
  match r.toState stAfterHeader stBeforeIndex with
  | none => none
  | some (r1, some e) => some (r1, some e)
  | some (r1, none) =>
    if r1.nodeSize > 0 then
      if r1.dataOffset > 0 then
        if !r1.stream.seekable then none
        else
          let r2 := { r1 with stream := r1.stream.seekTo r1.dataOffset }
          r2.toState stBeforeIndex stAfterIndex
      else if r1.stream.seekable then
        let r2 := r1.saveIndexOffset
        match Size r2.numFeatures.toNat r2.nodeSize with
        | .error (.err e) =>
          match r2.toErr e with
          | none => none
          | some (r3, e') => some (r3, some e')
        | .error _ => none
        | .ok indexSize =>
          let r3 := { r2 with dataOffset := r2.indexOffset + indexSize }
          let r4 := { r3 with stream := r3.stream.seekTo r3.dataOffset }
          r4.toState stBeforeIndex stAfterIndex
      else
        match Size r1.numFeatures.toNat r1.nodeSize with
        | .error (.err e) =>
          match r1.toErr e with
          | none => none
          | some (r3, e') => some (r3, some e')
        | .error _ => none
        | .ok indexSize =>
          match r1.stream.discard indexSize.toNat with
          | .error e =>
            match r1.toErr e with
            | none => none
            | some (r3, e') => some (r3, some e')
          | .ok st =>
            let r3 := { r1 with stream := st }
            r3.toState stBeforeIndex stAfterIndex
    else r1.toState stBeforeIndex stAfterIndex

/-- The feature-reading loop inside Reader.Data: read up to n features,
stopping at the first error. -/
def dataLoop (r : Reader) : ℕ → ℕ → List Feature →
    Option (Reader × ℕ × List Feature × Option GoErr)
  | 0, i, acc => some (r, i, acc, none)
  | n + 1, i, acc =>
    match r.readFeature with
    | none => none
    | some (r', .error e) => some (r', i, acc, some e)
    | some (r', .ok f) => dataLoop r' n (i + 1) (acc ++ [f])

/-- Embeds Reader.Data (reader.go): the returned tuple is the updated
reader, the count read, the features, and the returned error value
(io.EOF included); none models a Go abort. -/
def Reader.Data (r : Reader) (bufLen : ℕ) :
    Option (Reader × ℕ × List Feature × Option GoErr) :=
  if r.err ≠ none then some (r, 0, [], r.err)
  else
    let step1 : Option (Reader × Option GoErr) :=
      if r.state = stAfterHeader then r.skipIndex else some (r, none)
    match step1 with
    | none => none
    | some (r1, some e) => some (r1, 0, [], some e)
    | some (r1, none) =>
      let r2 :=
        if r1.state = stAfterIndex then
          { r1.saveDataOffset with state := stInData }
        else r1
      if r2.state = stEOF then some (r2, 0, [], some .eof)
      else if r2.state = stUninit then some (r2, 0, [], some .headerNotCalled)
      else if badState r2.state then none
      else
        let rem : ℤ := r2.numFeatures - r2.featureIndex
        let n : ℤ := if (bufLen : ℤ) > rem then rem else (bufLen : ℤ)
        match dataLoop r2 n.toNat 0 [] with
        | none => none
        | some (r3, i, feats, some e) => some (r3, i, feats, some e)
        | some (r3, i, feats, none) =>
          if n = rem then
            match r3.toState stInData stEOF with
            | none => none
            | some (r4, some e) => some (r4, i, feats, some e)
            | some (r4, none) => some (r4, i, feats, some .eof)
          else some (r3, i, feats, none)

/-- Embeds Reader.Close (reader.go), with its inverted error check
exactly as written: the returned triple is the updated reader, the
returned error value, and whether Close was invoked on the underlying
stream. -/
def Reader.Close (r : Reader) : Reader × Option GoErr × Bool :=
  if r.err = none then (r, r.err, false)
  else
    let r' := { r with err := some .closed }
    if r'.stream.closable then (r', none, true) else (r', none, false)

/-- Embeds stateful.close (the helper the file writer uses): the
returned triple is the updated error field, the returned error value,
and whether the underlying stream was closed. -/
def statefulClose (err : Option GoErr) (closable : Bool) :
    Option GoErr × Option GoErr × Bool :=
  if err = some .closed then (err, some .closed, false)
  else (some .closed, none, closable)

/-- Embeds flatbuffers table size extraction, tableSize
(file_writer.go): the table must be a size-prefixed root table at
buffer offset 0, i.e. its position is exactly 4. -/
def tableSize (bytes : List ℕ) (pos : ℕ) : Except GoErr ℕ :=
  if pos ≠ 4 then .error .notSizePrefixed else .ok (getUint32LE bytes)

/-- One chunk of writer output: either the marshalled index nodes or
one size-prefixed feature table. -/
inductive Chunk where
  | indexChunk : List Ref → Chunk
  | featureChunk : List ℕ → Chunk
deriving DecidableEq, Repr

/-- Embeds writeSizePrefixedTable (part_000): check the size prefix
against the buffer, then write bytes [0, 4+size).  Returns the bytes
written; a buffer shorter than 4+size aborts in Go when sliced. -/
def writeSizePrefixedTable (bytes : List ℕ) (pos : ℕ) : Except GoStop (List ℕ) :=
  match tableSize bytes pos with
  | .error e => .error (.err e)
  | .ok sz =>
    if sz > bytes.length then .error (.err .bufferTooSmall)
    else if bytes.length < 4 + sz then .error .abort
    else .ok (bytes.take (4 + sz))

/-- The XY expansion loop of featureBounds (file_writer.go): expand the
box by consecutive coordinate pairs; an odd-length vector makes the Go
code index past the end, a flatbuffers abort that
safeFlatBuffersInteraction traps into an error. -/
def expandPairs (b : Box) : List GoFloat → Except GoErr Box
  | [] => .ok b
  | [_] => .error .trappedFault
  | x :: y :: rest => expandPairs (b.ExpandXY x y) rest

/-- Embeds featureBounds (file_writer.go): start from EmptyBox and
expand by every geometry XY pair. -/
def featureBounds (f : Feature) : Except GoErr Box :=
  expandPairs EmptyBox f.xy

/-- Embeds the FileWriter struct (file_writer.go). -/
structure FileWriter where
  state : ℕ
  err : Option GoErr
  numFeatures : ℕ
  nodeSize : ℕ
  featureIndex : ℕ
deriving DecidableEq, Repr

/-- Embeds FileWriter.canWriteIndex; none is the fmtPanic default
branch. -/
def FileWriter.canWriteIndex (w : FileWriter) : Option (Option GoErr) :=
  match w.err with
  | some e => some (some e)
  | none =>
    if w.state = stUninit then some (some .headerNotCalled)
    else if w.state = stAfterHeader then
      if w.nodeSize = 0 then some (some .nodeSizeZero) else some none
    else if w.state = stAfterIndex ∨ w.state = stInData ∨ w.state = stEOF then
      some (some .writePastIndex)
    else none

/-- Embeds FileWriter.canWriteData; none is the fmtPanic default
branch. -/
def FileWriter.canWriteData (w : FileWriter) : Option (Option GoErr) :=
  match w.err with
  | some e => some (some e)
  | none =>
    if w.state = stUninit then some (some .headerNotCalled)
    else if w.state = stAfterHeader then
      if w.nodeSize > 0 then some (some .indexNotWritten) else some none
    else if w.state = stAfterIndex ∨ w.state = stInData then some none
    else if w.state = stEOF then some (some .allFeaturesWritten)
    else none

/-- Embeds the private FileWriter.index method: enter the index state,
check the tree against the header's feature count and node size,
marshal the nodes, and move to the data state. -/
def FileWriter.windex (w : FileWriter) (index : PackedRTree) :
    FileWriter × List Chunk × Option GoErr :=
  let w1 := { w with state := stBeforeIndex }
  if w1.numFeatures ≠ index.numRefs then
    ({ w1 with state := stAfterHeader }, [], some .countMismatch)
  else if w1.nodeSize ≠ index.nodeSize then
    ({ w1 with state := stAfterHeader }, [], some .nodeSizeMismatch)
  else
    ({ w1 with state := stAfterIndex }, [.indexChunk index.nodes], none)

/-- Embeds FileWriter.Data for one feature: check writability, enter
inData, write the size-prefixed table, bump the feature cursor, and
transition to EOF exactly when the declared positive feature count is
reached. -/
def FileWriter.Data (w : FileWriter) (f : Feature) :
    Option (FileWriter × List Chunk × Option GoErr) :=
  match w.canWriteData with
  | none => none
  | some (some e) => some (w, [], some e)
  | some none =>
    let w1 := { w with state := stInData }
    match writeSizePrefixedTable f.bytes f.pos with
    | .error .abort => none
    | .error .diverge => none
    | .error (.err e) => some (w1, [], some e)
    | .ok written =>
      let w2 := { w1 with featureIndex := w1.featureIndex + 1 }
      if w2.featureIndex = w2.numFeatures ∧ w2.numFeatures > 0 then
        some ({ w2 with state := stEOF }, [.featureChunk written], none)
      else some (w2, [.featureChunk written], none)

/-- The ref-building loop inside FileWriter.IndexDataPtr (run under
safeFlatBuffersInteraction): for each feature record the running
offset, add the table size to it, compute the feature's bounds, and
expand the overall bounds. -/
def indexDataRefsLoop (offset : ℤ) (bounds : Box) :
    List Feature → Except GoErr (List Ref × Box)
  | [] => .ok ([], bounds)
  | f :: rest =>
    match tableSize f.bytes f.pos with
    | .error e => .error e
    | .ok sz =>
      match featureBounds f with
      | .error e => .error e
      | .ok fb =>
        match indexDataRefsLoop (offset + (sz : ℤ)) (bounds.Expand fb) rest with
        | .error e => .error e
        | .ok (refs, finalBounds) => .ok ({ box := fb, Offset := offset } :: refs, finalBounds)

/-- The feature refs and overall bounds IndexDataPtr builds before
sorting. -/
def indexDataRefs (data : List Feature) : Except GoErr (List Ref × Box) :=
  indexDataRefsLoop 0 EmptyBox data

/-- The data-writing loop at the end of IndexDataPtr: write each
feature in slice order, stopping at the first error. -/
def writeDataLoop (w : FileWriter) : List Feature →
    Option (FileWriter × List Chunk × Option GoErr)
  | [] => some (w, [], none)
  | f :: rest =>
    match w.Data f with
    | none => none
    | some (w', cs, some e) => some (w', cs, some e)
    | some (w', cs, none) =>
      match writeDataLoop w' rest with
      | none => none
      | some (w'', cs', res) => some (w'', cs ++ cs', res)

/-- Embeds FileWriter.IndexDataPtr (file_writer.go): verify state,
build the refs with their data-section offsets, Hilbert-sort the refs,
construct the tree with New, write the index, then write the features
by iterating over the original data slice. -/
def FileWriter.IndexDataPtr (w : FileWriter) (data : List Feature) :
    Option (FileWriter × List Chunk × Option GoErr) :=
  match w.canWriteIndex with
  | none => none
  | some (some e) => some (w, [], some e)
  | some none =>
    match indexDataRefs data with
    | .error e => some (w, [], some e)
    | .ok (refs, bounds) =>
      let sorted := HilbertSort refs bounds
      match New sorted w.nodeSize with
      | .error .abort => none
      | .error .diverge => none
      | .error (.err e) => some (w, [], some e)
      | .ok index =>
        match w.windex index with
        | (w1, cs, some e) => some (w1, cs, some e)
        | (w1, cs, none) =>
          match writeDataLoop w1 data with
          | none => none
          | some (w2, cs', res) => some (w2, cs ++ cs', res)

example : levelify 4 2 = .ok [⟨3, 7⟩, ⟨1, 3⟩, ⟨0, 1⟩] := by decide

example : levelify 11 3 = .ok [⟨7, 18⟩, ⟨3, 7⟩, ⟨1, 3⟩, ⟨0, 1⟩] := by decide

example : size 1 2 = .ok 80 := by decide

example : size 8 2 = .ok 600 := by decide

/-- The byte position, measured from the start of the data section, of
the i-th feature's u32 length prefix, as the specification defines it:
the sum over all features written before it of (4 bytes of prefix plus
the payload length recorded in the prefix). -/
def specPrefixPos (data : List Feature) (i : ℕ) : ℤ :=
  ((data.take i).map (fun f => 4 + (getUint32LE f.bytes : ℤ))).sum

/-- A pending stream holding one complete feature table: a length
prefix of 8 followed by 8 payload bytes. -/
def c1Stream : ByteStream :=
  { bytes := [8, 0, 0, 0, 4, 0, 0, 0, 9, 9, 9, 9], pos := 0,
    seekable := false, closable := false }

/-- A reader positioned just after a header that declared
featuresCount = 0 and indexNodeSize = 0, with a full feature table
still pending on the stream. -/
def c1Reader : Reader :=
  { state := stAfterHeader, err := none, stream := c1Stream, numFeatures := 0,
    nodeSize := 0, indexOffset := 0, dataOffset := 0, cachedIndex := none,
    featureIndex := 0, featureOffset := 0 }

/-- C1, counterexample: with featuresCount = 0 and a complete feature
table pending on the stream, Data immediately returns zero features
and io.EOF, leaving the stream cursor untouched (the pending feature
is never read), and a second Data call does the same — contradicting
the claim that the reader continues to read features one by one until
the underlying stream reaches EOF. -/
theorem claim_C1_counterexample :
    (∃ r', c1Reader.Data 5 = some (r', 0, [], some .eof)
      ∧ r'.stream.pos = 0
      ∧ r'.state = stEOF
      ∧ r'.Data 5 = some (r', 0, [], some .eof))
    ∧ 12 ≤ c1Stream.bytes.length := by
  refine ⟨⟨{ c1Reader with state := stEOF }, ?_, ?_, ?_, ?_⟩, ?_⟩ <;> decide

/-- C1, amended: when the header declared featuresCount = 0 and
indexNodeSize = 0, Data on a non-errored reader positioned after the
header returns zero features and io.EOF at once, consuming nothing
from the stream regardless of any feature tables that follow, and
every subsequent Data call returns (0, io.EOF) again. -/
theorem claim_C1 (r : Reader) (k : ℕ)
    (he : r.err = none) (hs : r.state = stAfterHeader)
    (hn : r.numFeatures = 0) (hz : r.nodeSize = 0) (hf : 0 ≤ r.featureIndex) :
    ∃ r', r.Data k = some (r', 0, [], some .eof)
      ∧ r'.stream = r.stream
      ∧ r'.state = stEOF
      ∧ r'.err = none
      ∧ r'.Data k = some (r', 0, [], some .eof) := by
  obtain ⟨st, er, sm, nf, ns, io, dof, ci, fi, fo⟩ := r
  simp only at he hs hn hz hf
  subst he hs hn hz
  have hn0 : ((if -fi < (k : ℤ) then -fi else (k : ℤ))) = -fi := by
    split <;> omega
  have htn : (-fi : ℤ).toNat = 0 := Int.toNat_of_nonpos (by omega)
  have hke : ((k : ℤ) ≤ -fi → (k : ℤ) = -fi) := by omega
  by_cases hdo : dof = 0 ∧ sm.seekable = true
  · refine ⟨Reader.mk stEOF none sm 0 0 io (sm.pos : ℤ) ci fi fo, ?_, ?_, ?_, ?_, ?_⟩ <;>
      simp [Reader.Data, Reader.skipIndex, Reader.toState, Reader.saveDataOffset,
        badState, stAfterHeader, stBeforeIndex, stAfterIndex, stInData, stEOF, stUninit,
        stInvalid, hn0, htn, hke, dataLoop, hdo]
  · refine ⟨Reader.mk stEOF none sm 0 0 io dof ci fi fo, ?_, ?_, ?_, ?_, ?_⟩ <;>
      simp [Reader.Data, Reader.skipIndex, Reader.toState, Reader.saveDataOffset,
        badState, stAfterHeader, stBeforeIndex, stAfterIndex, stInData, stEOF, stUninit,
        stInvalid, hn0, htn, hke, dataLoop, hdo]

/-- C1, witness: the amended theorem applied to the concrete reader
c1Reader with every hypothesis discharged there. -/
theorem claim_C1_witness :
    c1Reader.err = none ∧ c1Reader.state = stAfterHeader ∧ c1Reader.numFeatures = 0
    ∧ c1Reader.nodeSize = 0 ∧ 0 ≤ c1Reader.featureIndex
    ∧ (∃ r', c1Reader.Data 5 = some (r', 0, [], some .eof)
        ∧ r'.stream = c1Reader.stream ∧ r'.state = stEOF ∧ r'.err = none
        ∧ r'.Data 5 = some (r', 0, [], some .eof)) :=
  ⟨rfl, rfl, rfl, rfl, by decide,
    claim_C1 c1Reader 5 rfl rfl rfl rfl (by decide)⟩

/-- A healthy (never-errored) reader whose underlying stream implements
io.Closer. -/
def c8Reader : Reader :=
  { state := stEOF, err := none,
    stream := { bytes := [], pos := 0, seekable := false, closable := true },
    numFeatures := 0, nodeSize := 0, indexOffset := 0, dataOffset := 0,
    cachedIndex := none, featureIndex := 0, featureOffset := 0 }

/-- C8: the first Close on a non-closed, non-errored reader returns nil
without entering the closed state and without closing the closable
underlying stream, and a second Close behaves identically instead of
returning the closed error — while stateful.close, the helper the file
writer uses, implements exactly the claimed semantics. -/
theorem claim_C8 :
    c8Reader.Close = (c8Reader, none, false)
    ∧ (c8Reader.Close.1).err = none
    ∧ c8Reader.stream.closable = true
    ∧ (c8Reader.Close.1).Close = (c8Reader, none, false)
    ∧ statefulClose none true = (some .closed, none, true)
    ∧ statefulClose (some .closed) true = (some .closed, some .closed, false) := by
  decide

/-- C9: ExpandXY applied to the empty box records the point as the new
minima but, because of the else-if, leaves both maxima at minus
infinity — so the result is not the zero-size point box that the union
semantics (and Expand, shown alongside) requires. -/
theorem claim_C9 :
    Box.ExpandXY EmptyBox (.fin 0) (.fin 0)
      = { XMin := .fin 0, YMin := .fin 0, XMax := .inf false, YMax := .inf false }
    ∧ Box.ExpandXY EmptyBox (.fin 0) (.fin 0) ≠ pointBox (.fin 0) (.fin 0)
    ∧ Box.Expand EmptyBox (pointBox (.fin 0) (.fin 0)) = pointBox (.fin 0) (.fin 0) := by
  decide

/-- The box and extent of the C4 failing input: b spans Y in [2, 4]
inside overall bounds with origin (0, 1), width 2 and height 2. -/
def c4Box : Box := { XMin := .fin 0, YMin := .fin 2, XMax := .fin 0, YMax := .fin 4 }

/-- C4: at the failing input the Y argument the code passes to the
XY-to-index function is 0 (hy is never assigned; the Y-branch divides
by ey and overwrites hx), whereas the specification requires
hy = floor((midY - ey)/eh * 65535) = 65535 there. -/
theorem claim_C4 :
    (hilbertOfCenterArgs c4Box (.fin 0) (.fin 1) (.fin 2) (.fin 2)).2 = 0
    ∧ specHilbertY c4Box (.fin 1) (.fin 2) = 65535
    ∧ hilbertOfCenter c4Box (.fin 0) (.fin 1) (.fin 2) (.fin 2)
        = hilbertOfXY (hilbertOfCenterArgs c4Box (.fin 0) (.fin 1) (.fin 2) (.fin 2)).1 0 := by
  refine ⟨by decide, ?_, ?_⟩
  · norm_num [specHilbertY, c4Box, Box.midY, GoFloat.add_fin, GoFloat.sub_fin,
      GoFloat.mul_fin, GoFloat.div_fin, GoFloat.floor_fin, GoFloat.toUint32_fin]
    decide
  · have h : (hilbertOfCenterArgs c4Box (.fin 0) (.fin 1) (.fin 2) (.fin 2)).2 = 0 := by decide
    simp [hilbertOfCenter, h]

/-- First feature of the C5/C6 failing input: payload length 8 (so the
size-prefixed table occupies 4 + 8 = 12 bytes), geometry the segment
(1,1)-(2,2). -/
def c5f0 : Feature :=
  { bytes := [8, 0, 0, 0, 4, 0, 0, 0, 1, 1, 1, 1], pos := 4,
    xy := [.fin 1, .fin 1, .fin 2, .fin 2] }

/-- Second feature of the C5/C6 failing input: payload length 8,
geometry the segment (3,3)-(4,4). -/
def c5f1 : Feature :=
  { bytes := [8, 0, 0, 0, 4, 0, 0, 0, 2, 2, 2, 2], pos := 4,
    xy := [.fin 3, .fin 3, .fin 4, .fin 4] }

/-- C5: the ref the writer shortcut builds for the second feature
carries Offset 8 — the sum of the preceding payload lengths only —
although each written feature occupies 4 + payload bytes on the
stream, so the second length prefix actually sits at byte 12 as the
specification demands. -/
theorem claim_C5 :
    indexDataRefs [c5f0, c5f1]
      = .ok ([{ box := { XMin := .fin 1, YMin := .fin 1, XMax := .fin 2, YMax := .fin 2 },
                Offset := 0 },
              { box := { XMin := .fin 3, YMin := .fin 3, XMax := .fin 4, YMax := .fin 4 },
                Offset := 8 }],
             { XMin := .fin 1, YMin := .fin 1, XMax := .fin 4, YMax := .fin 4 })
    ∧ writeSizePrefixedTable c5f0.bytes c5f0.pos = .ok c5f0.bytes
    ∧ c5f0.bytes.length = 12
    ∧ specPrefixPos [c5f0, c5f1] 0 = 0
    ∧ specPrefixPos [c5f0, c5f1] 1 = 12
    ∧ (8 : ℤ) ≠ 12 := by
  decide

/-- The result set the specification prescribes for a search: one
Result per leaf whose box intersects the query box. -/
def specSearchResults (refs : List Ref) (q : Box) : List Result :=
  (List.range refs.length).filterMap (fun i =>
    match refs.get? i with
    | some r => if q.intersects r.box then some { Offset := r.Offset, RefIndex := (i : ℤ) }
                else none
    | none => none)

/-- The Hilbert-sorted feature references of the C3/C10 failing input
(their Hilbert center keys are strictly descending under the bounds
below, as the sort fixed-point conjunct of claim_C3 verifies). -/
def c3Refs : List Ref :=
  [ { box := { XMin := .fin 5, YMin := .fin 5, XMax := .fin 6, YMax := .fin 6 }, Offset := 20 },
    { box := { XMin := .fin 7, YMin := .fin 7, XMax := .fin 8, YMax := .fin 8 }, Offset := 30 },
    { box := { XMin := .fin 3, YMin := .fin 3, XMax := .fin 4, YMax := .fin 4 }, Offset := 10 },
    { box := { XMin := .fin 1, YMin := .fin 1, XMax := .fin 2, YMax := .fin 2 }, Offset := 0 } ]

/-- The overall bounds of c3Refs. -/
def c3Bounds : Box := { XMin := .fin 1, YMin := .fin 1, XMax := .fin 8, YMax := .fin 8 }

/-- The tree New actually builds from c3Refs with node size 2: because
the parent pointer is never advanced, node 1 holds the union of the
second leaf group (overwriting the first group's parent) and node 2
stays the zero value, so the root box misses leaves 3 and 4 and
absorbs the spurious origin box. -/
def c3Tree : PackedRTree :=
  { numRefs := 4, nodeSize := 2,
    levels := [⟨3, 7⟩, ⟨1, 3⟩, ⟨0, 1⟩],
    nodes :=
      [ { box := { XMin := .fin 0, YMin := .fin 0, XMax := .fin 4, YMax := .fin 4 }, Offset := 1 },
        { box := { XMin := .fin 1, YMin := .fin 1, XMax := .fin 4, YMax := .fin 4 }, Offset := 5 },
        { box := zeroBox, Offset := 0 },
        { box := { XMin := .fin 5, YMin := .fin 5, XMax := .fin 6, YMax := .fin 6 }, Offset := 20 },
        { box := { XMin := .fin 7, YMin := .fin 7, XMax := .fin 8, YMax := .fin 8 }, Offset := 30 },
        { box := { XMin := .fin 3, YMin := .fin 3, XMax := .fin 4, YMax := .fin 4 }, Offset := 10 },
        { box := { XMin := .fin 1, YMin := .fin 1, XMax := .fin 2, YMax := .fin 2 }, Offset := 0 } ] }

/-- The C3 query: exactly the box of the leaf at refIndex 1. -/
def c3Query : Box := { XMin := .fin 7, YMin := .fin 7, XMax := .fin 8, YMax := .fin 8 }

/-- The C10 query: a box at the origin, which intersects the zero-value
node the broken New leaves at index 2. -/
def c10Query : Box := { XMin := .fin 0, YMin := .fin 0, XMax := .fin 1, YMax := .fin 1 }

/-- With no fetch callback configured, the search loop can never return
the error outcome: every `.err` in its body sits under the some-fetch
branch. -/
theorem searchLoop_none_no_err {σ : Type} (ns : ℕ) (levels : List LevelRange) (b : Box)
    (pop : List Ticket → Option (Ticket × List Ticket))
    (push : List Ticket → Ticket → List Ticket) :
    ∀ (fuel : ℕ) (bag : List Ticket) (nodes : List Ref) (s : σ) (acc : List Result)
      (e : GoErr), searchLoop ns levels b pop push none fuel bag nodes s acc ≠ .err e := by
  intro fuel
  induction fuel with
  | zero => intro bag nodes s acc e; simp [searchLoop]
  | succ n ih =>
    intro bag nodes s acc e
    rw [searchLoop]
    cases hp : pop bag with
    | none => simp
    | some tb =>
      obtain ⟨t, bag1⟩ := tb
      by_cases hl : t.level < 0
      · simp [hl]
      · simp only [hl, if_false]
        cases h1 : levels.get? t.level.toNat with
        | none => simp
        | some lv =>
          cases h2 : levels.get? 0 with
          | none => simp
          | some lv0 =>
            simp only
            cases hs : scanNodes b (decide ((lv0.start : ℤ) ≤ t.nodeIndex)) (lv0.start : ℤ)
                t.level push nodes
                (posList t.nodeIndex
                  (if (lv.stop : ℤ) < t.nodeIndex + (ns : ℤ) then (lv.stop : ℤ)
                   else t.nodeIndex + (ns : ℤ))) bag1 acc with
            | none => simp
            | some ba =>
              obtain ⟨bag2, acc2⟩ := ba
              by_cases hb : bag2 = []
              · simp [hb]
              · simp [hb, ih]

/-- The feature references of the C3/C10 failing input are
Hilbert-sorted: sorting them with the code's own sort is a fixed
point. -/
theorem c3Refs_sorted : HilbertSort c3Refs c3Bounds = c3Refs := by
  have hk0 : hilbertOfCenter { XMin := .fin 5, YMin := .fin 5, XMax := .fin 6, YMax := .fin 6 }
      (.fin 1) (.fin 1) (.fin 7) (.fin 7) = hilbertOfXY 262140 0 := by
    have ha : hilbertOfCenterArgs { XMin := .fin 5, YMin := .fin 5, XMax := .fin 6, YMax := .fin 6 }
        (.fin 1) (.fin 1) (.fin 7) (.fin 7) = (262140, 0) := by
      norm_num [hilbertOfCenterArgs, Box.midY, Box.midX, GoFloat.add_fin, GoFloat.sub_fin,
        GoFloat.mul_fin, GoFloat.div_fin, GoFloat.floor_fin, GoFloat.toUint32_fin,
        Int.floor_intCast]
      all_goals decide
    simp [hilbertOfCenter, ha]
  have hk1 : hilbertOfCenter { XMin := .fin 7, YMin := .fin 7, XMax := .fin 8, YMax := .fin 8 }
      (.fin 1) (.fin 1) (.fin 7) (.fin 7) = hilbertOfXY 393210 0 := by
    have ha : hilbertOfCenterArgs { XMin := .fin 7, YMin := .fin 7, XMax := .fin 8, YMax := .fin 8 }
        (.fin 1) (.fin 1) (.fin 7) (.fin 7) = (393210, 0) := by
      norm_num [hilbertOfCenterArgs, Box.midY, Box.midX, GoFloat.add_fin, GoFloat.sub_fin,
        GoFloat.mul_fin, GoFloat.div_fin, GoFloat.floor_fin, GoFloat.toUint32_fin,
        Int.floor_intCast]
      all_goals decide
    simp [hilbertOfCenter, ha]
  have hk2 : hilbertOfCenter { XMin := .fin 3, YMin := .fin 3, XMax := .fin 4, YMax := .fin 4 }
      (.fin 1) (.fin 1) (.fin 7) (.fin 7) = hilbertOfXY 131070 0 := by
    have ha : hilbertOfCenterArgs { XMin := .fin 3, YMin := .fin 3, XMax := .fin 4, YMax := .fin 4 }
        (.fin 1) (.fin 1) (.fin 7) (.fin 7) = (131070, 0) := by
      norm_num [hilbertOfCenterArgs, Box.midY, Box.midX, GoFloat.add_fin, GoFloat.sub_fin,
        GoFloat.mul_fin, GoFloat.div_fin, GoFloat.floor_fin, GoFloat.toUint32_fin,
        Int.floor_intCast]
      all_goals decide
    simp [hilbertOfCenter, ha]
  have hk3 : hilbertOfCenter { XMin := .fin 1, YMin := .fin 1, XMax := .fin 2, YMax := .fin 2 }
      (.fin 1) (.fin 1) (.fin 7) (.fin 7) = hilbertOfXY 0 0 := by
    have ha : hilbertOfCenterArgs { XMin := .fin 1, YMin := .fin 1, XMax := .fin 2, YMax := .fin 2 }
        (.fin 1) (.fin 1) (.fin 7) (.fin 7) = (0, 0) := by
      norm_num [hilbertOfCenterArgs, Box.midY, Box.midX, GoFloat.add_fin, GoFloat.sub_fin,
        GoFloat.mul_fin, GoFloat.div_fin, GoFloat.floor_fin, GoFloat.toUint32_fin,
        Int.floor_intCast]
    simp [hilbertOfCenter, ha]
  have hw : c3Bounds.Width = .fin 7 := by
    norm_num [c3Bounds, Box.Width, GoFloat.sub_fin]
  have hh : c3Bounds.Height = .fin 7 := by
    norm_num [c3Bounds, Box.Height, GoFloat.sub_fin]
  have hx : c3Bounds.XMin = .fin 1 := rfl
  have hy : c3Bounds.YMin = .fin 1 := rfl
  rw [HilbertSort, hw, hh, hx, hy]
  simp only [c3Refs, sortBy, insertBy, hilbertLess, hk0, hk1, hk2, hk3]
  norm_num
  all_goals decide

/-- C3: on the Hilbert-sorted input c3Refs with node size 2, New builds
c3Tree (whose internal level is corrupted by the non-advancing parent
pointer), and searching it with the box of the leaf at refIndex 1
returns the empty result list even though that leaf intersects the
query — the specified result set is exactly {Result 30 1}. -/
theorem claim_C3 :
    HilbertSort c3Refs c3Bounds = c3Refs
    ∧ New c3Refs 2 = .ok c3Tree
    ∧ searchMem c3Tree c3Query = .ok [] ()
    ∧ Search c3Tree c3Query = some []
    ∧ specSearchResults c3Refs c3Query = [{ Offset := 30, RefIndex := 1 }]
    ∧ ([] : List Result) ≠ [{ Offset := 30, RefIndex := 1 }] :=
  ⟨c3Refs_sorted, by decide, by decide, by decide, by decide, by decide⟩

/-- C10: with no fetch callback the search loop can never return the
error outcome (so the panic(err) branch of PackedRTree.Search is
indeed unreachable), but Search is not total: on the tree New builds
from c3Refs, the query c10Query makes the search pop a ticket with
level -1 — a Go index-out-of-range abort. -/
theorem claim_C10 :
    (∀ (σ : Type) (ns : ℕ) (levels : List LevelRange) (b : Box)
        (pop : List Ticket → Option (Ticket × List Ticket))
        (push : List Ticket → Ticket → List Ticket)
        (fuel : ℕ) (bag : List Ticket) (nodes : List Ref) (s : σ)
        (acc : List Result) (e : GoErr),
        searchLoop ns levels b pop push none fuel bag nodes s acc ≠ .err e)
    ∧ New c3Refs 2 = .ok c3Tree
    ∧ searchMem c3Tree c10Query = .abort
    ∧ Search c3Tree c10Query = none :=
  ⟨fun _ ns levels b pop push fuel bag nodes s acc e =>
      searchLoop_none_no_err ns levels b pop push fuel bag nodes s acc e,
   by decide, by decide, by decide⟩

/-- Ceiling division on naturals, the ⌈a/b⌉ of the specification. -/
def cdiv (a b : ℕ) : ℕ := (a + b - 1) / b

theorem cdiv_eq_succ_div (n k : ℕ) (hn : 1 ≤ n) (hk : 1 ≤ k) :
    cdiv n k = (n - 1) / k + 1 := by
  unfold cdiv
  have h1 : n + k - 1 = (n - 1) + 1 * k := by omega
  rw [h1, Nat.add_mul_div_right _ _ (by omega : 0 < k)]

theorem cdiv_pos (n k : ℕ) (hn : 1 ≤ n) (hk : 1 ≤ k) : 1 ≤ cdiv n k := by
  rw [cdiv_eq_succ_div n k hn hk]
  exact Nat.le_add_left 1 _

theorem cdiv_le_self (n k : ℕ) (hk : 1 ≤ k) : cdiv n k ≤ n := by
  rcases Nat.eq_zero_or_pos n with h | h
  · subst h; unfold cdiv; simp [Nat.div_eq_of_lt (by omega : k - 1 < k)]
  · rw [cdiv_eq_succ_div n k h hk]
    have := Nat.div_le_self (n - 1) k
    omega

theorem cdiv_lt (n k : ℕ) (hn : 2 ≤ n) (hk : 2 ≤ k) : cdiv n k < n := by
  rw [cdiv_eq_succ_div n k (by omega) (by omega)]
  have h1 : (n - 1) / k < n - 1 := Nat.div_lt_self (by omega) (by omega)
  omega

theorem cdiv_cdiv (n k p : ℕ) (hk : 1 ≤ k) (hp : 1 ≤ p) :
    cdiv (cdiv n k) p = cdiv n (k * p) := by
  rcases Nat.eq_zero_or_pos n with h | h
  · subst h
    have h0 : cdiv 0 k = 0 := by
      unfold cdiv; exact Nat.div_eq_of_lt (by omega)
    have h0' : cdiv 0 (k * p) = 0 := by
      have hkp : 0 < k * p := Nat.mul_pos hk hp
      unfold cdiv; exact Nat.div_eq_of_lt (by omega)
    rw [h0, h0']
    unfold cdiv; exact Nat.div_eq_of_lt (by omega)
  · have hkp : 0 < k * p := Nat.mul_pos hk hp
    rw [cdiv_eq_succ_div n k h hk]
    rw [cdiv_eq_succ_div ((n - 1) / k + 1) p (Nat.le_add_left 1 _) hp]
    rw [cdiv_eq_succ_div n (k * p) h (by omega)]
    simp only [Nat.add_sub_cancel]
    rw [Nat.div_div_eq_div_mul]

/-- The specification's internal-node sum: the terms ⌈n/k^i⌉ for
i = 1, 2, ... until the term reaches 1, accumulated with p carrying the
current power k^i.  The structural fuel (n is always enough, as
claim_C7's proof shows) keeps the definition kernel-computable. -/
def specTotalGo (k n : ℕ) : ℕ → ℕ → ℕ
  | 0, p => cdiv n p
  | fuel + 1, p =>
    if 2 ≤ k ∧ 2 ≤ cdiv n p then cdiv n p + specTotalGo k n fuel (p * k)
    else cdiv n p

/-- The specification's total node count: n plus the sum of
⌈n/k^i⌉ for i = 1, 2, ... until the term reaches 1. -/
def totalNodesSpec (n k : ℕ) : ℕ := n + specTotalGo k n n k

/-- Bridge between the code's per-level chain (ceilChain, iterated
ceiling divisions) and the specification's power form: when
m = ⌈n/p⌉, the chain continuing from m sums to the spec terms of n
from power p·k on. -/
theorem cdiv_unfold (m k : ℕ) : (m + k - 1) / k = cdiv m k := rfl

theorem ceilChain_sum_bridge (k : ℕ) (hk : 2 ≤ k) :
    ∀ (fuel gfuel m n p : ℕ), 1 ≤ m → m ≤ fuel → m ≤ gfuel → 1 ≤ p →
      m = cdiv n p →
      ∃ c, ceilChain k fuel m = some c ∧ c.sum = specTotalGo k n gfuel (p * k) := by
  intro fuel
  induction fuel with
  | zero => intro gfuel m n p h1 h2 _ _ _; omega
  | succ f ih =>
    intro gfuel m n p h1 h2 h3 hp hm
    have hmk : cdiv m k = cdiv n (p * k) := by
      rw [hm]; exact cdiv_cdiv n p k hp (by omega)
    by_cases hone : cdiv m k = 1
    · refine ⟨[1], ?_, ?_⟩
      · simp [ceilChain, cdiv_unfold, hone]
      · cases gfuel with
        | zero => simp [specTotalGo, ← hmk, hone]
        | succ g => simp [specTotalGo, ← hmk, hone]
    · have hm2 : 2 ≤ m := by
        rcases Nat.lt_or_ge m 2 with hlt | hge
        · exfalso
          have hm1 : m = 1 := by omega
          apply hone
          subst hm1
          unfold cdiv
          have : 1 + k - 1 = k := by omega
          rw [this, Nat.div_self (by omega)]
        · exact hge
      have hck : 2 ≤ cdiv m k := by
        have := cdiv_pos m k (by omega) (by omega)
        omega
      have hlt : cdiv m k < m := cdiv_lt m k hm2 hk
      obtain ⟨g, hg⟩ : ∃ g, gfuel = g + 1 := ⟨gfuel - 1, by omega⟩
      have hpk : 0 < p * k := Nat.mul_pos hp (by omega)
      obtain ⟨c, hc, hsum⟩ := ih g (cdiv m k) n (p * k)
        (by omega) (by omega) (by omega) (by omega) hmk
      refine ⟨cdiv m k :: c, ?_, ?_⟩
      · simp only [ceilChain, cdiv_unfold, hone, if_false, hc, Option.map_some']
      · subst hg
        simp only [specTotalGo, ← hmk, hck, hk, and_self, if_true, List.sum_cons, hsum]

/-- C7: for all n ≥ 1 and k ≥ 2 (within the overflow guards), the
embedded Size returns 40 times the specification's total node count
n + Σ ⌈n/k^i⌉ (terms until 1), and the four concrete instances of the
claim hold. -/
theorem claim_C7 :
    (∀ n k : ℕ, 1 ≤ n → 2 ≤ k → (totalNodesSpec n k : ℤ) ≤ maxInt / numNodeBytes →
      Size n k = .ok (40 * (totalNodesSpec n k : ℤ)))
    ∧ Size 1 2 = .ok (2 * 40) ∧ Size 2 2 = .ok (3 * 40)
    ∧ Size 4 2 = .ok (7 * 40) ∧ Size 8 2 = .ok (15 * 40) := by
  refine ⟨?_, by decide, by decide, by decide, by decide⟩
  intro n k h1 h2 h3
  have hcd : cdiv n 1 = n := by unfold cdiv; simp
  obtain ⟨c, hc, hsum⟩ :=
    ceilChain_sum_bridge k h2 n n n n 1 h1 le_rfl le_rfl le_rfl hcd.symm
  rw [one_mul] at hsum
  have htot : n + c.sum = totalNodesSpec n k := by rw [totalNodesSpec, hsum]
  have hdivle : maxInt / numNodeBytes ≤ maxInt :=
    Int.ediv_le_self _ (by norm_num [maxInt])
  have hmax : (totalNodesSpec n k : ℤ) ≤ maxInt := le_trans h3 hdivle
  have hg1 : ¬ ((c.sum : ℤ) > maxInt - (n : ℤ)) := by omega
  have hg2 : ¬ (((n + c.sum : ℕ) : ℤ) > maxInt / numNodeBytes) := by omega
  have hv : validateParams n k = .ok () := by
    unfold validateParams
    rw [if_neg (by omega), if_neg (by omega)]
  rw [Size, hv]
  unfold size
  rw [hc]
  dsimp only
  have htn : totalNodes n c.sum = .ok (n + c.sum) := by
    unfold totalNodes; rw [if_neg hg1]
  rw [htn]
  dsimp only
  rw [if_neg hg2]
  congr 1
  have hq : ((n + c.sum : ℕ) : ℤ) = (totalNodesSpec n k : ℤ) := by omega
  rw [numNodeBytes, hq]
  ring

/-- C7, witness: the universal part of claim_C7 applied at n = 3,
k = 2, all hypotheses discharged concretely. -/
theorem claim_C7_witness :
    (1 ≤ 3 ∧ 2 ≤ 2 ∧ (totalNodesSpec 3 2 : ℤ) ≤ maxInt / numNodeBytes)
    ∧ Size 3 2 = .ok (40 * (totalNodesSpec 3 2 : ℤ)) :=
  ⟨⟨by decide, by decide, by decide⟩,
   claim_C7.1 3 2 (by decide) (by decide) (by decide)⟩

theorem insertBy_length (le : α → α → Bool) (x : α) :
    ∀ l : List α, (insertBy le x l).length = l.length + 1 := by
  intro l
  induction l with
  | nil => rfl
  | cons y ys ih =>
    unfold insertBy
    split
    · simp
    · simp [ih]

theorem sortBy_length (le : α → α → Bool) :
    ∀ l : List α, (sortBy le l).length = l.length := by
  intro l
  induction l with
  | nil => rfl
  | cons x xs ih => simp [sortBy, insertBy_length, ih]

theorem HilbertSort_length (refs : List Ref) (b : Box) :
    (HilbertSort refs b).length = refs.length := by
  unfold HilbertSort
  exact sortBy_length _ refs

/-- Levelify succeeds whenever the parameters are in range and the
total node count fits the platform integer. -/
theorem levelify_ok (n ns : ℕ) (h1 : 1 ≤ n) (h2 : 2 ≤ ns)
    (hov : (totalNodesSpec n ns : ℤ) ≤ maxInt) :
    ∃ zs, levelify n ns = .ok zs := by
  have hcd : cdiv n 1 = n := by unfold cdiv; simp
  obtain ⟨c, hc, hsum⟩ :=
    ceilChain_sum_bridge ns h2 n n n n 1 h1 le_rfl le_rfl le_rfl hcd.symm
  rw [one_mul] at hsum
  have htot : n + c.sum = totalNodesSpec n ns := by rw [totalNodesSpec, hsum]
  have hg1 : ¬ ((c.sum : ℤ) > maxInt - (n : ℤ)) := by omega
  refine ⟨List.zipWith (fun i cc => LevelRange.mk i (i + cc))
    (levelIndicesFrom (n + c.sum) (n :: c)) (n :: c), ?_⟩
  unfold levelify
  rw [hc]
  dsimp only
  have htn : totalNodes n c.sum = .ok (n + c.sum) := by
    unfold totalNodes; rw [if_neg hg1]
  rw [htn]

/-- New succeeds on a nonempty ref list with a legal node size and a
total node count within the platform integer, and records the ref
count and node size it was given. -/
theorem New_ok (refs : List Ref) (ns : ℕ) (h1 : 1 ≤ refs.length) (h2 : 2 ≤ ns)
    (hov : (totalNodesSpec refs.length ns : ℤ) ≤ maxInt) :
    ∃ prt, New refs ns = .ok prt ∧ prt.numRefs = refs.length ∧ prt.nodeSize = ns := by
  obtain ⟨zs, hzs⟩ := levelify_ok refs.length ns h1 h2 hov
  have hv : validateParams refs.length ns = .ok () := by
    unfold validateParams
    rw [if_neg (by omega), if_neg (by omega)]
  have hnoo : noo refs.length ns
      = .ok { numRefs := refs.length, nodeSize := ns, levels := zs,
              nodes := List.replicate (zs.headI.stop) zeroRef } := by
    unfold noo
    rw [hv, hzs]
  refine ⟨{ numRefs := refs.length, nodeSize := ns, levels := zs,
            nodes := buildInternal ns (zs.zip zs.tail)
              (setRange (List.replicate zs.headI.stop zeroRef) zs.headI.start refs) },
          ?_, rfl, rfl⟩
  unfold New
  rw [hnoo]

theorem expandPairs_ok_aux :
    ∀ (n : ℕ) (xs : List GoFloat) (b : Box), xs.length ≤ n → xs.length % 2 = 0 →
      ∃ bb, expandPairs b xs = .ok bb := by
  intro n
  induction n with
  | zero =>
    intro xs b hl _
    cases xs with
    | nil => exact ⟨b, rfl⟩
    | cons x rest => simp at hl
  | succ m ih =>
    intro xs b hl hp
    cases xs with
    | nil => exact ⟨b, rfl⟩
    | cons x rest =>
      cases rest with
      | nil => simp at hp
      | cons y rest' =>
        simp only [List.length_cons] at hl hp
        exact ih rest' (b.ExpandXY x y) (by omega) (by omega)

theorem expandPairs_ok (xs : List GoFloat) (b : Box) (h : xs.length % 2 = 0) :
    ∃ bb, expandPairs b xs = .ok bb :=
  expandPairs_ok_aux xs.length xs b le_rfl h

/-- The ref-building loop succeeds on features with size-prefixed root
tables and even XY vectors. -/
theorem indexDataRefsLoop_ok :
    ∀ (data : List Feature) (offset : ℤ) (bounds : Box),
      (∀ f ∈ data, f.pos = 4 ∧ f.xy.length % 2 = 0) →
      ∃ refs fb, indexDataRefsLoop offset bounds data = .ok (refs, fb)
        ∧ refs.length = data.length := by
  intro data
  induction data with
  | nil => exact fun _ _ _ => ⟨[], _, rfl, rfl⟩
  | cons f rest ih =>
    intro offset bounds hval
    obtain ⟨hpos, hxy⟩ := hval f (by simp)
    have hts : tableSize f.bytes f.pos = .ok (getUint32LE f.bytes) := by
      unfold tableSize
      rw [if_neg (by omega)]
    obtain ⟨fb, hfb⟩ := expandPairs_ok f.xy EmptyBox hxy
    obtain ⟨refs, bb, hloop, hlen⟩ :=
      ih (offset + (getUint32LE f.bytes : ℤ)) (bounds.Expand fb)
        (fun g hg => hval g (by simp [hg]))
    refine ⟨{ box := fb, Offset := offset } :: refs, bb, ?_, by simp [hlen]⟩
    unfold indexDataRefsLoop
    rw [hts]
    dsimp only
    unfold featureBounds
    rw [hfb]
    dsimp only
    rw [hloop]

/-- The ref IndexDataPtr builds for c5f0: box [1,1]x[2,2], data-section
offset 0. -/
def c6r0 : Ref :=
  { box := { XMin := .fin 1, YMin := .fin 1, XMax := .fin 2, YMax := .fin 2 }, Offset := 0 }

/-- The ref IndexDataPtr builds for c5f1: box [3,3]x[4,4], data-section
offset 8 (the payload-only running offset of C5). -/
def c6r1 : Ref :=
  { box := { XMin := .fin 3, YMin := .fin 3, XMax := .fin 4, YMax := .fin 4 }, Offset := 8 }

/-- The overall bounds of the two C6 feature boxes. -/
def c6bounds : Box := { XMin := .fin 1, YMin := .fin 1, XMax := .fin 4, YMax := .fin 4 }

/-- A writer that has just written a header declaring 2 features and
index node size 2. -/
def c6w : FileWriter :=
  { state := stAfterHeader, err := none, numFeatures := 2, nodeSize := 2, featureIndex := 0 }

/-- The tree New builds from the Hilbert-sorted C6 refs [c6r1, c6r0]:
one root over one leaf group, leaves in Hilbert order. -/
def c6tree : PackedRTree :=
  { numRefs := 2, nodeSize := 2, levels := [⟨1, 3⟩, ⟨0, 1⟩],
    nodes := [{ box := c6bounds, Offset := 1 }, c6r1, c6r0] }

/-- Under the C6 bounds the code's (bugged) Hilbert key of c6r0 is
hilbertOfXY 0 0: midY = YMin = 1, so 65535·(1-1)/1 = 0, passed as the
X argument with Y fixed at 0. -/
theorem c6key0 : hilbertOfCenter c6r0.box (.fin 1) (.fin 1) (.fin 3) (.fin 3)
    = hilbertOfXY 0 0 := by
  have ha : hilbertOfCenterArgs c6r0.box (.fin 1) (.fin 1) (.fin 3) (.fin 3) = (0, 0) := by
    norm_num [c6r0, hilbertOfCenterArgs, Box.midY, Box.midX, GoFloat.add_fin, GoFloat.sub_fin,
      GoFloat.mul_fin, GoFloat.div_fin, GoFloat.floor_fin, GoFloat.toUint32_fin,
      Int.floor_intCast]
  simp [hilbertOfCenter, ha]

/-- Under the C6 bounds the code's (bugged) Hilbert key of c6r1 is
hilbertOfXY 131070 0: midY = YMin = 3, so 65535·(3-1)/1 = 131070. -/
theorem c6key1 : hilbertOfCenter c6r1.box (.fin 1) (.fin 1) (.fin 3) (.fin 3)
    = hilbertOfXY 131070 0 := by
  have ha : hilbertOfCenterArgs c6r1.box (.fin 1) (.fin 1) (.fin 3) (.fin 3)
      = (131070, 0) := by
    norm_num [c6r1, hilbertOfCenterArgs, Box.midY, Box.midX, GoFloat.add_fin, GoFloat.sub_fin,
      GoFloat.mul_fin, GoFloat.div_fin, GoFloat.floor_fin, GoFloat.toUint32_fin,
      Int.floor_intCast]
    all_goals decide
  simp [hilbertOfCenter, ha]

/-- Hilbert-sorting the C6 refs reverses them: c6r1's key exceeds
c6r0's and the sort is by descending key. -/
theorem c6Refs_sorted : HilbertSort [c6r0, c6r1] c6bounds = [c6r1, c6r0] := by
  have hw : c6bounds.Width = .fin 3 := by
    norm_num [c6bounds, Box.Width, GoFloat.sub_fin]
  have hh : c6bounds.Height = .fin 3 := by
    norm_num [c6bounds, Box.Height, GoFloat.sub_fin]
  have hx : c6bounds.XMin = .fin 1 := rfl
  have hy : c6bounds.YMin = .fin 1 := rfl
  rw [HilbertSort, hw, hh, hx, hy]
  simp only [sortBy, insertBy, hilbertLess, c6key0, c6key1]
  norm_num
  all_goals decide

/-- Data succeeds on a writable writer and a feature whose buffer holds
its full size-prefixed table, emitting that feature's first 4 + size
bytes and bumping the feature cursor; the state moves to EOF exactly
when the declared positive feature count is reached. -/
theorem Data_ok (w : FileWriter) (f : Feature)
    (he : w.err = none) (hs : w.state = stAfterIndex ∨ w.state = stInData)
    (hp : f.pos = 4) (hlen : 4 + getUint32LE f.bytes ≤ f.bytes.length) :
    w.Data f = some
      ({ w with
          state := if w.featureIndex + 1 = w.numFeatures ∧ w.numFeatures > 0
                   then stEOF else stInData,
          featureIndex := w.featureIndex + 1 },
       [.featureChunk (f.bytes.take (4 + getUint32LE f.bytes))], none) := by
  have hcw : w.canWriteData = some none := by
    unfold FileWriter.canWriteData
    rw [he]
    rcases hs with h | h <;> rw [h] <;> rfl
  have hts : tableSize f.bytes f.pos = .ok (getUint32LE f.bytes) := by
    unfold tableSize
    rw [if_neg (by omega)]
  have hwt : writeSizePrefixedTable f.bytes f.pos
      = .ok (f.bytes.take (4 + getUint32LE f.bytes)) := by
    unfold writeSizePrefixedTable
    rw [hts]
    dsimp only
    rw [if_neg (by omega), if_neg (by omega)]
  unfold FileWriter.Data
  rw [hcw]
  dsimp only
  rw [hwt]
  dsimp only
  by_cases hfin : w.featureIndex + 1 = w.numFeatures ∧ w.numFeatures > 0
  · rw [if_pos hfin, if_pos hfin]
  · rw [if_neg hfin, if_neg hfin]

/-- The data loop at the end of IndexDataPtr emits, in the order of the
input slice, exactly one chunk per feature holding that feature's
size-prefixed table bytes. -/
theorem writeDataLoop_emits :
    ∀ (data : List Feature) (w : FileWriter),
      w.err = none → (w.state = stAfterIndex ∨ w.state = stInData) →
      w.featureIndex + data.length ≤ w.numFeatures →
      (∀ f ∈ data, f.pos = 4 ∧ 4 + getUint32LE f.bytes ≤ f.bytes.length) →
      ∃ wfin, writeDataLoop w data
        = some (wfin,
            data.map (fun f => .featureChunk (f.bytes.take (4 + getUint32LE f.bytes))),
            none) := by
  intro data
  induction data with
  | nil => exact fun w _ _ _ _ => ⟨w, rfl⟩
  | cons f rest ih =>
    intro w he hs hcnt hval
    obtain ⟨hp, hlen⟩ := hval f (by simp)
    have hD := Data_ok w f he hs hp hlen
    simp only [List.length_cons] at hcnt
    by_cases hfin : w.featureIndex + 1 = w.numFeatures ∧ w.numFeatures > 0
    · have hrest : rest = [] := by
        have h0 : rest.length = 0 := by omega
        exact List.length_eq_zero.mp h0
      subst hrest
      refine ⟨{ w with state := stEOF, featureIndex := w.featureIndex + 1 }, ?_⟩
      unfold writeDataLoop
      rw [hD, if_pos hfin]
      rfl
    · obtain ⟨wfin, hloop⟩ :=
        ih { w with state := stInData, featureIndex := w.featureIndex + 1 }
          he (Or.inr rfl) (by dsimp only; omega)
          (fun g hg => hval g (by simp [hg]))
      refine ⟨wfin, ?_⟩
      unfold writeDataLoop
      rw [hD, if_neg hfin]
      dsimp only
      rw [hloop]
      rfl

/-- C6, counterexample: on the two-feature input the Hilbert sort
reverses the references (c5f1's ref sorts first), yet IndexDataPtr
emits the feature chunks in the original input order c5f0, c5f1 — not
in the Hilbert order c5f1, c5f0. -/
theorem claim_C6_counterexample :
    indexDataRefs [c5f0, c5f1] = .ok ([c6r0, c6r1], c6bounds)
    ∧ HilbertSort [c6r0, c6r1] c6bounds = [c6r1, c6r0]
    ∧ c6w.IndexDataPtr [c5f0, c5f1]
        = some ({ c6w with state := stEOF, featureIndex := 2 },
            [.indexChunk c6tree.nodes,
             .featureChunk c5f0.bytes, .featureChunk c5f1.bytes], none)
    ∧ [Chunk.featureChunk c5f0.bytes, Chunk.featureChunk c5f1.bytes]
        ≠ [Chunk.featureChunk c5f1.bytes, Chunk.featureChunk c5f0.bytes] := by
  refine ⟨by decide, c6Refs_sorted, ?_, by decide⟩
  have h1 : c6w.canWriteIndex = some none := by decide
  have h2 : indexDataRefs [c5f0, c5f1] = .ok ([c6r0, c6r1], c6bounds) := by decide
  have h4 : New [c6r1, c6r0] c6w.nodeSize = .ok c6tree := by decide
  have h5 : c6w.windex c6tree
      = ({ c6w with state := stAfterIndex }, [.indexChunk c6tree.nodes], none) := by decide
  have h6 : writeDataLoop { c6w with state := stAfterIndex } [c5f0, c5f1]
      = some ({ c6w with state := stEOF, featureIndex := 2 },
          [.featureChunk c5f0.bytes, .featureChunk c5f1.bytes], none) := by decide
  unfold FileWriter.IndexDataPtr
  rw [h1]
  dsimp only
  rw [h2]
  dsimp only
  rw [c6Refs_sorted, h4]
  dsimp only
  rw [h5]
  dsimp only
  rw [h6]
  rfl

/-- C6 (amended): the IndexData/IndexDataPtr shortcut Hilbert-sorts the
feature references to build the index, but writes the feature tables in
the order of the original data slice, not in Hilbert order: the emitted
chunks are the marshalled index followed by one chunk per input
feature, in input order. -/
theorem claim_C6 (w : FileWriter) (data : List Feature)
    (he : w.err = none) (hs : w.state = stAfterHeader)
    (hns : 2 ≤ w.nodeSize) (hnf : w.numFeatures = data.length)
    (hfi : w.featureIndex = 0) (hne : 1 ≤ data.length)
    (hval : ∀ f ∈ data, f.pos = 4 ∧ 4 + getUint32LE f.bytes ≤ f.bytes.length
            ∧ f.xy.length % 2 = 0)
    (hov : (totalNodesSpec data.length w.nodeSize : ℤ) ≤ maxInt) :
    ∃ wfin refs bounds index,
      indexDataRefs data = .ok (refs, bounds)
      ∧ New (HilbertSort refs bounds) w.nodeSize = .ok index
      ∧ w.IndexDataPtr data
          = some (wfin,
              .indexChunk index.nodes
                :: data.map (fun f =>
                    .featureChunk (f.bytes.take (4 + getUint32LE f.bytes))),
              none) := by
  have hcwi : w.canWriteIndex = some none := by
    unfold FileWriter.canWriteIndex
    rw [he]
    dsimp only
    rw [hs]
    rw [if_neg (by decide), if_pos rfl, if_neg (by omega)]
  obtain ⟨refs, bounds, hrefs, hreflen⟩ := indexDataRefsLoop_ok data 0 EmptyBox
    (fun f hf => ⟨(hval f hf).1, (hval f hf).2.2⟩)
  have hrefs' : indexDataRefs data = .ok (refs, bounds) := hrefs
  have hslen : (HilbertSort refs bounds).length = data.length := by
    rw [HilbertSort_length, hreflen]
  obtain ⟨index, hnew, hnr, hnsx⟩ := New_ok (HilbertSort refs bounds) w.nodeSize
    (by rw [hslen]; exact hne) hns (by rw [hslen]; exact hov)
  have hwindex : w.windex index
      = ({ w with state := stAfterIndex }, [.indexChunk index.nodes], none) := by
    unfold FileWriter.windex
    dsimp only
    rw [if_neg (by rw [hnr, hslen, hnf]; exact fun hc => hc rfl),
        if_neg (by rw [hnsx]; exact fun hc => hc rfl)]
  obtain ⟨wfin, hloop⟩ := writeDataLoop_emits data { w with state := stAfterIndex }
    he (Or.inl rfl) (by dsimp only; omega)
    (fun f hf => ⟨(hval f hf).1, (hval f hf).2.1⟩)
  refine ⟨wfin, refs, bounds, index, hrefs', hnew, ?_⟩
  unfold FileWriter.IndexDataPtr
  rw [hcwi]
  dsimp only
  rw [hrefs']
  dsimp only
  rw [hnew]
  dsimp only
  rw [hwindex]
  dsimp only
  rw [hloop]
  rfl

/-- C6, witness: claim_C6 applied to the two-feature input c5f0, c5f1
on a freshly headed writer with node size 2, every hypothesis
discharged concretely. -/
theorem claim_C6_witness :
    (c6w.err = none ∧ c6w.state = stAfterHeader ∧ 2 ≤ c6w.nodeSize
      ∧ c6w.numFeatures = [c5f0, c5f1].length ∧ c6w.featureIndex = 0
      ∧ 1 ≤ [c5f0, c5f1].length
      ∧ (∀ f ∈ [c5f0, c5f1], f.pos = 4 ∧ 4 + getUint32LE f.bytes ≤ f.bytes.length
          ∧ f.xy.length % 2 = 0)
      ∧ (totalNodesSpec [c5f0, c5f1].length c6w.nodeSize : ℤ) ≤ maxInt)
    ∧ (∃ wfin refs bounds index,
        indexDataRefs [c5f0, c5f1] = .ok (refs, bounds)
        ∧ New (HilbertSort refs bounds) c6w.nodeSize = .ok index
        ∧ c6w.IndexDataPtr [c5f0, c5f1]
            = some (wfin,
                .indexChunk index.nodes
                  :: [c5f0, c5f1].map (fun f =>
                      .featureChunk (f.bytes.take (4 + getUint32LE f.bytes))),
                none)) :=
  ⟨⟨rfl, rfl, by decide, rfl, rfl, by decide, by decide, by decide⟩,
   claim_C6 c6w [c5f0, c5f1] rfl rfl (by decide) rfl rfl (by decide) (by decide) (by decide)⟩

theorem heapPop_cons_isSome (t : Ticket) (l : List Ticket) :
    heapPop (t :: l) ≠ none := by
  cases l with
  | nil => simp [heapPop]
  | cons u rest =>
    unfold heapPop
    cases h : heapPop (u :: rest) with
    | none => simp
    | some p =>
      obtain ⟨m, r⟩ := p
      by_cases hlt : m.nodeIndex < t.nodeIndex <;> simp [hlt]

/-- heapPop returns an element of the bag, the remaining bag is drawn
from the old one, and the popped element has minimal nodeIndex. -/
theorem heapPop_spec :
    ∀ (l : List Ticket) (t : Ticket) (r : List Ticket), heapPop l = some (t, r) →
      t ∈ l ∧ (∀ u ∈ r, u ∈ l) ∧ (∀ u ∈ l, t.nodeIndex ≤ u.nodeIndex) := by
  intro l
  induction l with
  | nil => intro t r h; simp [heapPop] at h
  | cons t0 rest ih =>
    intro t r h
    cases rest with
    | nil =>
      unfold heapPop at h
      obtain ⟨h1, h2⟩ := Prod.mk.injEq .. ▸ (Option.some.injEq .. ▸ h)
      subst h1
      subst h2
      exact ⟨by simp, by simp, by intro u hu; simp at hu; simp [hu]⟩
    | cons u0 rest0 =>
      unfold heapPop at h
      cases hrec : heapPop (u0 :: rest0) with
      | none => exact absurd hrec (heapPop_cons_isSome u0 rest0)
      | some p =>
        obtain ⟨m, r0⟩ := p
        obtain ⟨hm_mem, hm_sub, hm_min⟩ := ih m r0 hrec
        rw [hrec] at h
        dsimp only at h
        by_cases hlt : m.nodeIndex < t0.nodeIndex
        · rw [if_pos hlt] at h
          obtain ⟨h1, h2⟩ := Prod.mk.injEq .. ▸ (Option.some.injEq .. ▸ h)
          subst h1
          subst h2
          refine ⟨List.mem_cons_of_mem _ hm_mem, ?_, ?_⟩
          · intro u hu
            rcases List.mem_cons.mp hu with h | h
            · simp [h]
            · exact List.mem_cons_of_mem _ (hm_sub u h)
          · intro u hu
            rcases List.mem_cons.mp hu with h | h
            · subst h; omega
            · exact hm_min u h
        · rw [if_neg hlt] at h
          obtain ⟨h1, h2⟩ := Prod.mk.injEq .. ▸ (Option.some.injEq .. ▸ h)
          subst h1
          subst h2
          refine ⟨by simp, fun u hu => List.mem_cons_of_mem _ hu, ?_⟩
          intro u hu
          rcases List.mem_cons.mp hu with h | h
          · subst h; omega
          · have := hm_min u h
            omega

/-- Appending a value dominating every element keeps a trace
nondecreasing. -/
theorem chain_le_append :
    ∀ (l : List ℤ) (a : ℤ), List.Chain' (· ≤ ·) l → (∀ x ∈ l, x ≤ a) →
      List.Chain' (· ≤ ·) (l ++ [a]) := by
  intro l
  induction l with
  | nil => intro a _ _; simp
  | cons x xs ih =>
    intro a hc hle
    cases xs with
    | nil =>
      simp only [List.cons_append, List.nil_append]
      exact List.chain'_cons.mpr ⟨hle x (by simp), List.chain'_singleton a⟩
    | cons y ys =>
      obtain ⟨hxy, hc2⟩ := List.chain'_cons.mp hc
      simp only [List.cons_append]
      exact List.chain'_cons.mpr
        ⟨hxy, by
          have := ih a hc2 (fun z hz => hle z (List.mem_cons_of_mem _ hz))
          simpa using this⟩

theorem setRange_length (nodes vals : List Ref) (i : ℕ)
    (h : i + vals.length ≤ nodes.length) :
    (setRange nodes i vals).length = nodes.length := by
  unfold setRange
  simp only [List.length_append, List.length_take, List.length_drop]
  omega

theorem setRange_get (nodes vals : List Ref) (i p : ℕ)
    (h : i + vals.length ≤ nodes.length) (h1 : i ≤ p) (h2 : p < i + vals.length) :
    (setRange nodes i vals).get? p = vals.get? (p - i) := by
  unfold setRange
  have hti : (List.take i nodes).length = i := by
    rw [List.length_take]
    omega
  rw [List.get?_append (by simp only [List.length_append, hti]; omega)]
  rw [List.get?_append_right (by rw [hti]; omega)]
  rw [hti]

theorem posList_mem (i e p : ℤ) (h : p ∈ posList i e) : i ≤ p ∧ p < e := by
  unfold posList at h
  obtain ⟨k, hk, hp⟩ := List.mem_map.mp h
  simp only [List.pure_def, List.bind_eq_flatMap, List.mem_flatMap, List.mem_range,
    List.mem_cons, List.not_mem_nil, or_false] at hk
  obtain ⟨a, ha, hak⟩ := hk
  subst hak
  have := (Int.lt_toNat).mp ha
  omega

/-- Structure of the per-level count chain: it starts at ⌈n/k⌉, each
element is the ceiling quotient of its predecessor, it ends at 1, and
every element is positive. -/
theorem ceilChain_struct (k : ℕ) (hk : 2 ≤ k) :
    ∀ (fuel n : ℕ) (c : List ℕ), 1 ≤ n → ceilChain k fuel n = some c →
      c.head? = some (cdiv n k)
      ∧ List.Chain' (fun a b => b = cdiv a k) c
      ∧ c.getLast? = some 1
      ∧ ∀ x ∈ c, 1 ≤ x := by
  intro fuel
  induction fuel with
  | zero => intro n c _ h; simp [ceilChain] at h
  | succ f ih =>
    intro n c hn h
    unfold ceilChain at h
    rw [cdiv_unfold] at h
    by_cases hone : cdiv n k = 1
    · rw [if_pos hone] at h
      obtain h1 := Option.some.injEq .. ▸ h
      subst h1
      exact ⟨by rw [hone]; rfl, List.chain'_singleton 1, rfl, by intro x hx; simp at hx; omega⟩
    · rw [if_neg hone] at h
      obtain ⟨c1, hc1, hmap⟩ := Option.map_eq_some'.mp h
      subst hmap
      have hpos : 1 ≤ cdiv n k := cdiv_pos n k hn (by omega)
      obtain ⟨hh, hch, hlast, hall⟩ := ih (cdiv n k) c1 hpos hc1
      refine ⟨rfl, ?_, ?_, ?_⟩
      · exact List.chain'_cons'.mpr ⟨fun y hy => by rw [hy] at hh; exact (Option.some.injEq .. ▸ hh).symm ▸ rfl, hch⟩
      · cases c1 with
        | nil => simp at hh
        | cons a l => rw [List.getLast?_cons_cons]; exact hlast
      · intro x hx
        rcases List.mem_cons.mp hx with h | h
        · omega
        · exact hall x h

theorem levelIndicesFrom_length :
    ∀ (cs : List ℕ) (rem : ℕ), (levelIndicesFrom rem cs).length = cs.length := by
  intro cs
  induction cs with
  | nil => intro rem; rfl
  | cons c rest ih => intro rem; simp [levelIndicesFrom, ih]

/-- Closed form of the running-subtraction start indices. -/
theorem levelIndicesFrom_get :
    ∀ (cs : List ℕ) (rem i : ℕ), i < cs.length →
      (levelIndicesFrom rem cs).get? i = some (rem - ((cs.take (i + 1)).sum)) := by
  intro cs
  induction cs with
  | nil => intro rem i h; simp at h
  | cons c rest ih =>
    intro rem i h
    cases i with
    | zero => simp [levelIndicesFrom]
    | succ j =>
      simp only [List.length_cons] at h
      unfold levelIndicesFrom
      rw [List.get?_cons_succ, ih (rem - c) j (by omega)]
      congr 1
      simp only [List.take_succ_cons, List.sum_cons]
      omega

theorem zipWith_get {α β γ : Type} (f : α → β → γ) :
    ∀ (as : List α) (bs : List β) (i : ℕ) (a : α) (b : β),
      as.get? i = some a → bs.get? i = some b →
      (List.zipWith f as bs).get? i = some (f a b) := by
  intro as
  induction as with
  | nil => intro bs i a b ha _; simp at ha
  | cons x xs ih =>
    intro bs i a b ha hb
    cases bs with
    | nil => simp at hb
    | cons y ys =>
      cases i with
      | zero =>
        simp only [List.get?_cons_zero, Option.some.injEq] at ha hb
        subst ha
        subst hb
        rfl
      | succ j =>
        simp only [List.get?_cons_succ] at ha hb
        simpa [List.zipWith] using ih ys j a b ha hb

theorem sum_take_le (cs : List ℕ) (j : ℕ) : (cs.take j).sum ≤ cs.sum := by
  conv_rhs => rw [← List.take_append_drop j cs]
  rw [List.sum_append]
  omega

theorem sum_take_succ_get (cs : List ℕ) :
    ∀ (i : ℕ) (c : ℕ), cs.get? i = some c → ((cs.take (i + 1)).sum) = (cs.take i).sum + c := by
  induction cs with
  | nil => intro i c h; simp at h
  | cons x xs ih =>
    intro i c h
    cases i with
    | zero => simp at h; simp [h]
    | succ j =>
      rw [List.get?_cons_succ] at h
      simp only [List.take_succ_cons, List.sum_cons, ih j c h]
      omega

/-- The level-range structure every successful levelify satisfies,
with N the total node count: at least one level; the first (leaf)
level ends at N; the last level is the root range [0, 1); every level
is nonempty and ends at or before N; consecutive levels are contiguous
(the higher level ends where the lower starts) and the higher level
holds the ceiling quotient of the lower level's node count. -/
def levelsStruct (levels : List LevelRange) (ns N : ℕ) : Prop :=
  1 ≤ levels.length
  ∧ (∀ lv, levels.get? 0 = some lv → lv.stop = N)
  ∧ levels.get? (levels.length - 1) = some ⟨0, 1⟩
  ∧ (∀ i lv, levels.get? i = some lv → lv.start < lv.stop ∧ lv.stop ≤ N)
  ∧ (∀ i lv lv', levels.get? i = some lv → levels.get? (i + 1) = some lv' →
      lv'.stop = lv.start ∧ lv'.stop - lv'.start = cdiv (lv.stop - lv.start) ns)

theorem chain'_get {α : Type} (R : α → α → Prop) :
    ∀ (l : List α), List.Chain' R l →
      ∀ i a b, l.get? i = some a → l.get? (i + 1) = some b → R a b := by
  intro l
  induction l with
  | nil => intro _ i a b ha _; simp at ha
  | cons x xs ih =>
    intro hch i a b ha hb
    obtain ⟨hhead, htail⟩ := List.chain'_cons'.mp hch
    cases i with
    | zero =>
      rw [List.get?_cons_zero, Option.some.injEq] at ha
      subst ha
      rw [List.get?_cons_succ] at hb
      cases xs with
      | nil => simp at hb
      | cons y ys =>
        rw [List.get?_cons_zero, Option.some.injEq] at hb
        exact hb ▸ hhead y rfl
    | succ j =>
      rw [List.get?_cons_succ] at ha hb
      exact ih htail j a b ha hb

/-- Every successful levelify yields the levelsStruct shape, with the
total node count n plus the sum of the per-level chain. -/
theorem levelify_struct (n ns : ℕ) (h1 : 1 ≤ n) (h2 : 2 ≤ ns) (zs : List LevelRange)
    (hz : levelify n ns = .ok zs) :
    ∃ c, ceilChain ns n n = some c ∧ levelsStruct zs ns (n + c.sum) := by
  unfold levelify at hz
  cases hc : ceilChain ns n n with
  | none => rw [hc] at hz; simp at hz
  | some chain =>
    rw [hc] at hz
    dsimp only at hz
    unfold totalNodes at hz
    by_cases hg : ((chain.sum : ℕ) : ℤ) > maxInt - (n : ℤ)
    · rw [if_pos hg] at hz; simp at hz
    · rw [if_neg hg] at hz
      dsimp only at hz
      have hzs : zs = List.zipWith (fun i c => LevelRange.mk i (i + c))
          (levelIndicesFrom (n + chain.sum) (n :: chain)) (n :: chain) :=
        (Except.ok.injEq .. ▸ hz).symm
      obtain ⟨hh, hch, hlast, hall⟩ := ceilChain_struct ns h2 n n chain h1 hc
      refine ⟨chain, rfl, ?_⟩
      have hsum : (n :: chain).sum = n + chain.sum := by simp
      have hlen : zs.length = (n :: chain).length := by
        rw [hzs, List.length_zipWith, levelIndicesFrom_length]
        omega
      have hget : ∀ i cnt, (n :: chain).get? i = some cnt →
          zs.get? i = some ⟨n + chain.sum - (((n :: chain).take (i + 1)).sum),
            n + chain.sum - (((n :: chain).take (i + 1)).sum) + cnt⟩ := by
        intro i cnt hcnt
        have hilen : i < (n :: chain).length := by
          by_contra hni
          rw [List.get?_eq_none.mpr (by omega)] at hcnt
          exact absurd hcnt (by simp)
        have hidx := levelIndicesFrom_get (n :: chain) (n + chain.sum) i hilen
        rw [hzs]
        exact zipWith_get _ _ _ i _ _ hidx hcnt
      have hchc : List.Chain' (fun a b => b = cdiv a ns) (n :: chain) := by
        refine List.chain'_cons'.mpr ⟨?_, hch⟩
        intro y hy
        rw [hy, Option.some.injEq] at hh
        omega
      have hallc : ∀ x ∈ (n :: chain), 1 ≤ x := by
        intro x hx
        rcases List.mem_cons.mp hx with h | h
        · omega
        · exact hall x h
      have hgetex : ∀ i, i < (n :: chain).length → ∃ cnt, (n :: chain).get? i = some cnt := by
        intro i hi
        rw [List.get?_eq_get hi]
        exact ⟨_, rfl⟩
      refine ⟨by rw [hlen]; simp, ?_, ?_, ?_, ?_⟩
      · intro lv hlv
        have h0 := hget 0 n (by rfl)
        rw [h0, Option.some.injEq] at hlv
        rw [← hlv]
        dsimp only
        have htk : (((n : ℕ) :: chain).take (0 + 1)).sum = n := by simp
        rw [htk]
        omega
      · have hlc : (n :: chain).getLast? = some 1 := by
          cases chain with
          | nil => simp at hh
          | cons a l => rw [List.getLast?_cons_cons]; exact hlast
        have hli : (n :: chain).get? ((n :: chain).length - 1) = some 1 := by
          rw [← List.getLast?_eq_get?]
          exact hlc
        have hr := hget ((n :: chain).length - 1) 1 hli
        have htk : ((n :: chain).take ((n :: chain).length - 1 + 1)).sum = n + chain.sum := by
          have hlp : (n :: chain).length - 1 + 1 = (n :: chain).length := by simp
          rw [hlp, List.take_length]
          exact hsum
        rw [htk] at hr
        rw [hlen]
        rw [hr]
        congr 1
        simp
      · intro i lv hlv
        have hilen : i < (n :: chain).length := by
          by_contra hni
          rw [List.get?_eq_none.mpr (by rw [hlen]; omega)] at hlv
          exact absurd hlv (by simp)
        obtain ⟨cnt, hcnt⟩ := hgetex i hilen
        have hzi := hget i cnt hcnt
        rw [hzi, Option.some.injEq] at hlv
        have hc1 : 1 ≤ cnt := hallc cnt (List.get?_mem hcnt)
        have hts : ((n :: chain).take (i + 1)).sum = ((n :: chain).take i).sum + cnt :=
          sum_take_succ_get (n :: chain) i cnt hcnt
        have htle : ((n :: chain).take (i + 1)).sum ≤ n + chain.sum := by
          have := sum_take_le (n :: chain) (i + 1)
          omega
        rw [← hlv]
        constructor
        · dsimp only
          omega
        · dsimp only
          omega
      · intro i lv lv' hlv hlv'
        have hilen : i + 1 < (n :: chain).length := by
          by_contra hni
          rw [List.get?_eq_none.mpr (by rw [hlen]; omega)] at hlv'
          exact absurd hlv' (by simp)
        obtain ⟨cnt, hcnt⟩ := hgetex i (by omega)
        obtain ⟨cnt', hcnt'⟩ := hgetex (i + 1) hilen
        have hzi := hget i cnt hcnt
        have hzi' := hget (i + 1) cnt' hcnt'
        rw [hzi, Option.some.injEq] at hlv
        rw [hzi', Option.some.injEq] at hlv'
        have hstep : cnt' = cdiv cnt ns :=
          chain'_get _ (n :: chain) hchc i cnt cnt' hcnt hcnt'
        have hts : ((n :: chain).take (i + 1)).sum = ((n :: chain).take i).sum + cnt :=
          sum_take_succ_get (n :: chain) i cnt hcnt
        have hts' : ((n :: chain).take (i + 1 + 1)).sum = ((n :: chain).take (i + 1)).sum + cnt' :=
          sum_take_succ_get (n :: chain) (i + 1) cnt' hcnt'
        have htle : ((n :: chain).take (i + 1 + 1)).sum ≤ n + chain.sum := by
          have := sum_take_le (n :: chain) (i + 1 + 1)
          omega
        have hc1 : 1 ≤ cnt := hallc cnt (List.get?_mem hcnt)
        have hc1' : 1 ≤ cnt' := hallc cnt' (List.get?_mem hcnt')
        rw [← hlv, ← hlv']
        constructor
        · dsimp only
          omega
        · dsimp only
          have he1 : n + chain.sum - ((List.take (i + 1) (n :: chain)).sum) + cnt
              - (n + chain.sum - ((List.take (i + 1) (n :: chain)).sum)) = cnt := by omega
          have he2 : n + chain.sum - ((List.take (i + 1 + 1) (n :: chain)).sum) + cnt'
              - (n + chain.sum - ((List.take (i + 1 + 1) (n :: chain)).sum)) = cnt' := by omega
          rw [he1, he2, hstep]

/-- Well-formedness of a serialized index stream against its level
structure, as Marshal lays the tree out: the node stored at position p
of an internal level points at its first child in the next-lower
level, nodeSize children per parent. -/
def wfIndexStream (stream : List Ref) (ns : ℕ) (levels : List LevelRange) : Prop :=
  ∀ i lv lv', levels.get? i = some lv → levels.get? (i + 1) = some lv' →
    ∀ p r, lv'.start ≤ p → p < lv'.stop → stream.get? p = some r →
      r.Offset = ((lv.start + (p - lv'.start) * ns : ℕ) : ℤ)

/-- Validity of a pending ticket with floor m: node index at least m,
level in range, node index inside that level's node range. -/
def ticketOK (levels : List LevelRange) (m : ℤ) (t : Ticket) : Prop :=
  m ≤ t.nodeIndex ∧ 0 ≤ t.level ∧
  ∃ lv, levels.get? t.level.toNat = some lv
    ∧ (lv.start : ℤ) ≤ t.nodeIndex ∧ t.nodeIndex < (lv.stop : ℤ)

/-- With the leaf flag set, a scan never pushes: the bag is returned
unchanged. -/
theorem scanNodes_leaf_bag (b : Box) (leaf0 lvl : ℤ)
    (push : List Ticket → Ticket → List Ticket) (nodes : List Ref) :
    ∀ (ps : List ℤ) (bag : List Ticket) (acc : List Result) (bag2 : List Ticket)
      (acc2 : List Result),
      scanNodes b true leaf0 lvl push nodes ps bag acc = some (bag2, acc2) →
      bag2 = bag := by
  intro ps
  induction ps with
  | nil =>
    intro bag acc bag2 acc2 h
    unfold scanNodes at h
    obtain ⟨h1, h2⟩ := Prod.mk.injEq .. ▸ (Option.some.injEq .. ▸ h)
    exact h1.symm
  | cons p rest ih =>
    intro bag acc bag2 acc2 h
    unfold scanNodes at h
    by_cases hneg : p < 0
    · rw [if_pos hneg] at h; simp at h
    · rw [if_neg hneg] at h
      cases hr : nodes.get? p.toNat with
      | none => rw [hr] at h; simp at h
      | some r =>
        rw [hr] at h
        dsimp only at h
        by_cases hint : b.intersects r.box = true
        · rw [if_pos hint] at h
          rw [if_pos rfl] at h
          exact ih _ _ _ _ h
        · rw [if_neg hint] at h
          exact ih _ _ _ _ h

/-- With the internal flag, every element of the outgoing bag is an
incoming element or a pushed child ticket of level lvl - 1 built from
a node the scan read within the position list. -/
theorem scanNodes_push_bag (b : Box) (leaf0 lvl : ℤ) (nodes : List Ref)
    (P : Ticket → Prop) :
    ∀ (ps : List ℤ) (bag : List Ticket) (acc : List Result) (bag2 : List Ticket)
      (acc2 : List Result),
      (∀ u ∈ bag, P u) →
      (∀ p ∈ ps, ∀ r, nodes.get? p.toNat = some r →
        P { nodeIndex := r.Offset, level := lvl - 1 }) →
      scanNodes b false leaf0 lvl heapPush nodes ps bag acc = some (bag2, acc2) →
      ∀ u ∈ bag2, P u := by
  intro ps
  induction ps with
  | nil =>
    intro bag acc bag2 acc2 hbag _ h
    unfold scanNodes at h
    obtain ⟨h1, h2⟩ := Prod.mk.injEq .. ▸ (Option.some.injEq .. ▸ h)
    exact h1 ▸ hbag
  | cons p rest ih =>
    intro bag acc bag2 acc2 hbag hps h
    unfold scanNodes at h
    by_cases hneg : p < 0
    · rw [if_pos hneg] at h; simp at h
    · rw [if_neg hneg] at h
      cases hr : nodes.get? p.toNat with
      | none => rw [hr] at h; simp at h
      | some r =>
        rw [hr] at h
        dsimp only at h
        by_cases hint : b.intersects r.box = true
        · rw [if_pos hint] at h
          rw [if_neg (by simp : ¬(false = true))] at h
          refine ih _ _ _ _ ?_ (fun q hq => hps q (List.mem_cons_of_mem _ hq)) h
          intro u hu
          unfold heapPush at hu
          rcases List.mem_append.mp hu with hmem | hmem
          · exact hbag u hmem
          · rw [List.mem_singleton] at hmem
            subst hmem
            exact hps p (by simp) r hr
        · rw [if_neg hint] at h
          exact ih _ _ _ _ hbag (fun q hq => hps q (List.mem_cons_of_mem _ hq)) h

/-- Trace monotonicity of the streaming search: on a well-formed index
stream, every successful run of the heap-driven search loop leaves a
nondecreasing trace of fetch targets, all within the index byte
range. -/
theorem searchLoop_trace (stream : List Ref) (startOffset : ℤ) (ns : ℕ)
    (levels : List LevelRange) (b : Box) (N : ℕ)
    (hN : stream.length = N)
    (hls : levelsStruct levels ns N)
    (hwf : wfIndexStream stream ns levels) :
    ∀ (fuel : ℕ) (bag : List Ticket) (nodes : List Ref) (s : SeekState)
      (acc : List Result) (m : ℤ) (rs : List Result) (sf : SeekState),
      0 ≤ m → m ≤ (N : ℤ) →
      (∀ t ∈ bag, ticketOK levels m t) →
      nodes.length = N →
      List.Chain' (· ≤ ·) s.trace →
      (∀ x ∈ s.trace, x ≤ startOffset + m * numNodeBytes) →
      searchLoop ns levels b heapPop heapPush (some (seekFetch stream startOffset)) fuel
        bag nodes s acc = .ok rs sf →
      List.Chain' (· ≤ ·) sf.trace
      ∧ ∀ x ∈ sf.trace, x ≤ startOffset + (N : ℤ) * numNodeBytes := by
  intro fuel
  induction fuel with
  | zero =>
    intro bag nodes s acc m rs sf _ _ _ _ _ _ h
    unfold searchLoop at h
    exact absurd h (by simp)
  | succ fuel ih =>
    intro bag nodes s acc m rs sf hm hmN hbag hnodes hch htr h
    unfold searchLoop at h
    cases hpop : heapPop bag with
    | none => rw [hpop] at h; exact absurd h (by simp)
    | some pr =>
      obtain ⟨t, bag1⟩ := pr
      rw [hpop] at h
      dsimp only at h
      obtain ⟨hp_t, hp_sub, hp_min⟩ := heapPop_spec bag t bag1 hpop
      obtain ⟨htm, htl0, lv, hlv, hlvs, hlvt⟩ := hbag t hp_t
      rw [if_neg (by omega : ¬ t.level < 0)] at h
      obtain ⟨hlen1, hstop0, hroot, hlvint, hcons⟩ := hls
      have hlv0ex : ∃ lv0, levels.get? 0 = some lv0 := by
        cases h0 : levels.get? 0 with
        | none => rw [List.get?_eq_none] at h0; omega
        | some lv0 => exact ⟨lv0, rfl⟩
      obtain ⟨lv0, hlv0⟩ := hlv0ex
      rw [hlv, hlv0] at h
      dsimp only at h
      have hstopN : lv.stop ≤ N := (hlvint _ _ hlv).2
      set E := if (lv.stop : ℤ) < t.nodeIndex + (ns : ℤ) then (lv.stop : ℤ)
               else t.nodeIndex + (ns : ℤ) with hE
      have hiE : t.nodeIndex ≤ E := by rw [hE]; split <;> omega
      have hEstop : E ≤ (lv.stop : ℤ) := by rw [hE]; split <;> omega
      have hEN : E ≤ (N : ℤ) := by omega
      have hguard : 0 ≤ t.nodeIndex ∧ t.nodeIndex ≤ E ∧ E ≤ (stream.length : ℤ) := by
        refine ⟨by omega, hiE, by rw [hN]; exact hEN⟩
      have h40 : numNodeBytes = 40 := rfl
      have htrg_lo : startOffset + m * numNodeBytes
          ≤ startOffset + t.nodeIndex * numNodeBytes := by
        rw [h40]; omega
      have hch1 : List.Chain' (· ≤ ·)
          (s.trace ++ [startOffset + t.nodeIndex * numNodeBytes]) :=
        chain_le_append _ _ hch (fun x hx => le_trans (htr x hx) htrg_lo)
      have htr1 : ∀ x ∈ s.trace ++ [startOffset + t.nodeIndex * numNodeBytes],
          x ≤ startOffset + t.nodeIndex * numNodeBytes := by
        intro x hx
        rcases List.mem_append.mp hx with hx | hx
        · exact le_trans (htr x hx) htrg_lo
        · rw [List.mem_singleton] at hx; omega
      have hiN : t.nodeIndex < (N : ℤ) := by omega
      split at h
      · exact absurd h (by simp)
      · rename_i s1 vals heq
        rw [if_neg (by omega : ¬ t.nodeIndex < 0)] at h
        unfold seekFetch at heq
        dsimp only at heq
        rw [if_pos hguard] at heq
        obtain ⟨hs1, hvals⟩ := Prod.mk.injEq .. ▸ (Except.ok.injEq .. ▸ heq)
        subst hs1
        subst hvals
        have hlenv : ((stream.drop t.nodeIndex.toNat).take (E - t.nodeIndex).toNat).length
            = (E - t.nodeIndex).toNat := by
          rw [List.length_take, List.length_drop]
          have hc1 : (E - t.nodeIndex).toNat ≤ stream.length - t.nodeIndex.toNat := by omega
          omega
        split at h
        · exact absurd h (by simp)
        · rename_i bag2 acc2 hscan
          by_cases hbe : bag2 = []
          · rw [if_pos hbe] at h
            obtain ⟨h1, h2⟩ := SearchOut.ok.injEq .. ▸ h
            rw [← h2]
            refine ⟨hch1, ?_⟩
            intro x hx
            have := htr1 x hx
            rw [h40] at *
            omega
          · rw [if_neg hbe] at h
            have hbag1 : ∀ u ∈ bag1, ticketOK levels t.nodeIndex u := by
              intro u hu
              obtain ⟨hm1, hl1, lvu, hlvu, ha, hb⟩ := hbag u (hp_sub u hu)
              exact ⟨hp_min u (hp_sub u hu), hl1, lvu, hlvu, ha, hb⟩
            have hbag2 : ∀ u ∈ bag2, ticketOK levels t.nodeIndex u := by
              by_cases hleaf : (lv0.start : ℤ) ≤ t.nodeIndex
              · have hd : decide ((lv0.start : ℤ) ≤ t.nodeIndex) = true :=
                  decide_eq_true hleaf
                rw [hd] at hscan
                have hb2 := scanNodes_leaf_bag b _ _ heapPush _ _ _ _ _ _ hscan
                rw [hb2]
                exact hbag1
              · have hd : decide ((lv0.start : ℤ) ≤ t.nodeIndex) = false :=
                  decide_eq_false hleaf
                rw [hd] at hscan
                refine scanNodes_push_bag b _ t.level _ (ticketOK levels t.nodeIndex)
                  _ _ _ _ _ hbag1 ?_ hscan
                intro p hp r hr
                obtain ⟨hpi, hpe⟩ := posList_mem t.nodeIndex E p hp
                have hsr : (setRange nodes t.nodeIndex.toNat
                      ((stream.drop t.nodeIndex.toNat).take (E - t.nodeIndex).toNat)).get? p.toNat
                    = ((stream.drop t.nodeIndex.toNat).take (E - t.nodeIndex).toNat).get?
                        (p.toNat - t.nodeIndex.toNat) := by
                  refine setRange_get _ _ _ _ ?_ (by omega) ?_
                  · rw [hlenv, hnodes]; omega
                  · rw [hlenv]; omega
                rw [hsr] at hr
                rw [List.get?_take (by omega : p.toNat - t.nodeIndex.toNat
                    < (E - t.nodeIndex).toNat)] at hr
                rw [List.get?_drop] at hr
                rw [(by omega : t.nodeIndex.toNat + (p.toNat - t.nodeIndex.toNat)
                    = p.toNat)] at hr
                have hl1 : 1 ≤ t.level.toNat := by
                  by_contra hl0
                  have hz : t.level.toNat = 0 := by omega
                  rw [hz, hlv0, Option.some.injEq] at hlv
                  rw [← hlv] at hlvs
                  exact hleaf hlvs
                have hllen : t.level.toNat < levels.length := by
                  by_contra hc
                  rw [List.get?_eq_none.mpr (by omega)] at hlv
                  exact absurd hlv (by simp)
                obtain ⟨lvc, hlvc⟩ : ∃ lvc, levels.get? (t.level.toNat - 1) = some lvc := by
                  rw [List.get?_eq_get (by omega : t.level.toNat - 1 < levels.length)]
                  exact ⟨_, rfl⟩
                have hsucc : t.level.toNat - 1 + 1 = t.level.toNat := by omega
                obtain ⟨hcont, hcnt⟩ :=
                  hcons (t.level.toNat - 1) lvc lv hlvc (by rw [hsucc]; exact hlv)
                have hpnat1 : lv.start ≤ p.toNat := by omega
                have hpnat2 : p.toNat < lv.stop := by omega
                have hoff := hwf (t.level.toNat - 1) lvc lv hlvc (by rw [hsucc]; exact hlv)
                  p.toNat r hpnat1 hpnat2 hr
                have hq1 : p.toNat - lv.start < cdiv (lvc.stop - lvc.start) ns := by
                  rw [← hcnt]; omega
                have hcd1 : 1 ≤ cdiv (lvc.stop - lvc.start) ns := by omega
                have hmul : (p.toNat - lv.start) * ns
                    ≤ (cdiv (lvc.stop - lvc.start) ns - 1) * ns :=
                  Nat.mul_le_mul_right ns (by omega)
                have hsubmul : (cdiv (lvc.stop - lvc.start) ns - 1) * ns
                    = cdiv (lvc.stop - lvc.start) ns * ns - ns := by
                  rw [Nat.sub_mul, one_mul]
                have hdm : cdiv (lvc.stop - lvc.start) ns * ns
                    ≤ (lvc.stop - lvc.start) + ns - 1 := by
                  unfold cdiv
                  exact Nat.div_mul_le_self _ _
                have hnsmul : ns ≤ cdiv (lvc.stop - lvc.start) ns * ns := by
                  have := Nat.mul_le_mul_right ns hcd1
                  omega
                have hcpos : 1 ≤ lvc.stop - lvc.start := by
                  have := (hlvint _ _ hlvc).1
                  omega
                have hqc : (p.toNat - lv.start) * ns < lvc.stop - lvc.start := by omega
                have hofflt : lvc.start + (p.toNat - lv.start) * ns < lvc.stop := by omega
                have hoffge : (lvc.start : ℤ) ≤ r.Offset := by
                  rw [hoff]
                  have := Nat.le_add_right lvc.start ((p.toNat - lv.start) * ns)
                  exact_mod_cast this
                refine ⟨?_, by dsimp only; omega, lvc, ?_, hoffge, ?_⟩
                · dsimp only
                  have hcontz : (lv.stop : ℤ) ≤ (lvc.start : ℤ) := by
                    exact_mod_cast hcont.le
                  omega
                · dsimp only
                  rw [(by omega : (t.level - 1).toNat = t.level.toNat - 1)]
                  exact hlvc
                · dsimp only
                  rw [hoff]
                  exact_mod_cast hofflt
            have hnodes1 : (setRange nodes t.nodeIndex.toNat
                ((stream.drop t.nodeIndex.toNat).take (E - t.nodeIndex).toNat)).length = N := by
              rw [setRange_length]
              · exact hnodes
              · rw [hlenv, hnodes]; omega
            exact ih bag2 _ _ acc2 t.nodeIndex rs sf (by omega) (by omega)
              hbag2 hnodes1 hch1 htr1 h

/-- A successful size computation returns exactly 40 bytes per node of
the specification's total node count. -/
theorem size_inv (n k : ℕ) (h1 : 1 ≤ n) (h2 : 2 ≤ k) (sz : ℤ)
    (h : size n k = .ok sz) : sz = (totalNodesSpec n k : ℤ) * numNodeBytes := by
  have hcd : cdiv n 1 = n := by unfold cdiv; simp
  obtain ⟨c, hc, hsum⟩ :=
    ceilChain_sum_bridge k h2 n n n n 1 h1 le_rfl le_rfl le_rfl hcd.symm
  rw [one_mul] at hsum
  have htot : n + c.sum = totalNodesSpec n k := by rw [totalNodesSpec, hsum]
  unfold size at h
  rw [hc] at h
  dsimp only at h
  unfold totalNodes at h
  by_cases hg : ((c.sum : ℕ) : ℤ) > maxInt - (n : ℤ)
  · rw [if_pos hg] at h
    exact absurd h (by simp)
  · rw [if_neg hg] at h
    dsimp only at h
    by_cases hg2 : (((n + c.sum : ℕ) : ℕ) : ℤ) > maxInt / numNodeBytes
    · rw [if_pos hg2] at h
      exact absurd h (by simp)
    · rw [if_neg hg2] at h
      have hv := Except.ok.injEq .. ▸ h
      rw [← hv, ← htot]

/-- C2: for every numRefs ≥ 1, nodeSize ≥ 2, query box and start
offset, on a well-formed serialized index stream of exactly the total
node count, a successful streaming Seek never seeks or reads at a byte
offset smaller than a prior one (the chronological trace of absolute
stream positions is nondecreasing), and the final stream position is
indexStart + 40·N with N the total node count. -/
theorem claim_C2 (stream : List Ref) (startOffset : ℤ) (numRefs nodeSize : ℕ) (b : Box)
    (hn : 1 ≤ numRefs) (hk : 2 ≤ nodeSize)
    (hlen : stream.length = totalNodesSpec numRefs nodeSize)
    (hwf : ∀ zs, levelify numRefs nodeSize = .ok zs → wfIndexStream stream nodeSize zs)
    (rs : List Result) (s : SeekState)
    (hseek : Seek stream startOffset numRefs nodeSize b = .ok (rs, s)) :
    List.Chain' (· ≤ ·) s.trace
    ∧ s.offset = startOffset + (totalNodesSpec numRefs nodeSize : ℤ) * numNodeBytes := by
  unfold Seek at hseek
  cases hsz : size numRefs nodeSize with
  | error e => rw [hsz] at hseek; exact absurd hseek (by simp)
  | ok sz =>
    rw [hsz] at hseek
    dsimp only at hseek
    have hszv : sz = (totalNodesSpec numRefs nodeSize : ℤ) * numNodeBytes :=
      size_inv numRefs nodeSize hn hk sz hsz
    by_cases hov : sz > maxInt - startOffset
    · rw [if_pos hov] at hseek; exact absurd hseek (by simp)
    · rw [if_neg hov] at hseek
      cases hnoo : noo numRefs nodeSize with
      | error e => rw [hnoo] at hseek; exact absurd hseek (by simp)
      | ok prt =>
        rw [hnoo] at hseek
        dsimp only at hseek
        unfold noo at hnoo
        have hvp : validateParams numRefs nodeSize = .ok () := by
          unfold validateParams
          rw [if_neg (by omega), if_neg (by omega)]
        rw [hvp] at hnoo
        dsimp only at hnoo
        cases hlz : levelify numRefs nodeSize with
        | error e => rw [hlz] at hnoo; exact absurd hnoo (by simp)
        | ok zs =>
          rw [hlz] at hnoo
          dsimp only at hnoo
          have hprt := (Except.ok.injEq .. ▸ hnoo)
          rw [← hprt] at hseek
          dsimp only at hseek
          obtain ⟨c, hc, hls⟩ := levelify_struct numRefs nodeSize hn hk zs hlz
          have hcd : cdiv numRefs 1 = numRefs := by unfold cdiv; simp
          obtain ⟨c0, hc0, hsum0⟩ := ceilChain_sum_bridge nodeSize hk numRefs numRefs
            numRefs numRefs 1 hn le_rfl le_rfl le_rfl hcd.symm
          rw [one_mul] at hsum0
          rw [hc0, Option.some.injEq] at hc
          have htotN : numRefs + c.sum = totalNodesSpec numRefs nodeSize := by
            rw [totalNodesSpec, ← hsum0, hc]
          rw [htotN] at hls
          obtain ⟨hlen1, hstop0, hroot, hlvint, hcons⟩ := hls
          have hhead : zs.get? 0 = some zs.headI := by
            cases zs with
            | nil => simp at hlen1
            | cons z zt => rfl
          have hheadN : zs.headI.stop = totalNodesSpec numRefs nodeSize :=
            hstop0 zs.headI hhead
          have hbag0 : ∀ t ∈ [({ nodeIndex := 0, level := (zs.length : ℤ) - 1 } : Ticket)],
              ticketOK zs 0 t := by
            intro t ht
            rw [List.mem_singleton] at ht
            subst ht
            refine ⟨le_refl 0, by dsimp only; omega, ⟨0, 1⟩, ?_, by dsimp only; omega,
              by dsimp only; omega⟩
            dsimp only
            rw [(by omega : ((zs.length : ℤ) - 1).toNat = zs.length - 1)]
            exact hroot
          have hnodes0 : (List.replicate zs.headI.stop zeroRef).length
              = totalNodesSpec numRefs nodeSize := by
            rw [List.length_replicate, hheadN]
          split at hseek
          · rename_i rs0 s0 heqloop
            obtain ⟨hchain, hbound⟩ := searchLoop_trace stream startOffset nodeSize zs b
              (totalNodesSpec numRefs nodeSize) hlen
              ⟨hlen1, hstop0, hroot, hlvint, hcons⟩ (hwf zs hlz)
              (searchFuel nodeSize zs.length)
              [{ nodeIndex := 0, level := (zs.length : ℤ) - 1 }]
              (List.replicate zs.headI.stop zeroRef)
              { offset := startOffset, trace := [startOffset] } [] 0 rs0 s0
              le_rfl (by positivity) hbag0 hnodes0
              (List.chain'_singleton startOffset)
              (by intro x hx; rw [List.mem_singleton] at hx; subst hx; omega)
              heqloop
            by_cases hne : startOffset + sz ≠ s0.offset
            · rw [if_pos hne] at hseek
              obtain ⟨h1, h2⟩ := Prod.mk.injEq .. ▸ (Except.ok.injEq .. ▸ hseek)
              rw [← h2]
              constructor
              · dsimp only
                refine chain_le_append _ _ hchain ?_
                intro x hx
                have := hbound x hx
                omega
              · dsimp only
                omega
            · rw [if_neg hne] at hseek
              obtain ⟨h1, h2⟩ := Prod.mk.injEq .. ▸ (Except.ok.injEq .. ▸ hseek)
              rw [← h2]
              refine ⟨hchain, ?_⟩
              push_neg at hne
              omega
          · rename_i ge heqloop
            exact absurd hseek (by simp)
          · rename_i heqloop
            exact absurd hseek (by simp)
          · rename_i heqloop
            exact absurd hseek (by simp)

/-- A well-formed serialized 2-ref, node-size-2 index stream: the root
node points at its first child (node 1); nodes 1 and 2 are the
leaves. -/
def c2Stream : List Ref :=
  [ { box := { XMin := .fin 1, YMin := .fin 1, XMax := .fin 4, YMax := .fin 4 }, Offset := 1 },
    { box := { XMin := .fin 3, YMin := .fin 3, XMax := .fin 4, YMax := .fin 4 }, Offset := 8 },
    { box := { XMin := .fin 1, YMin := .fin 1, XMax := .fin 2, YMax := .fin 2 }, Offset := 0 } ]

/-- The C2 witness query box: the full bounds, hitting both leaves. -/
def c2Query : Box := { XMin := .fin 1, YMin := .fin 1, XMax := .fin 4, YMax := .fin 4 }

/-- c2Stream is well formed against the level structure of a 2-ref,
node-size-2 index. -/
theorem c2Stream_wf : ∀ zs, levelify 2 2 = .ok zs → wfIndexStream c2Stream 2 zs := by
  intro zs hz
  have hzv : levelify 2 2 = .ok [⟨1, 3⟩, ⟨0, 1⟩] := by decide
  rw [hzv, Except.ok.injEq] at hz
  subst hz
  intro i lv lv' hlv hlv' p r hp1 hp2 hr
  cases i with
  | zero =>
    simp only [List.get?_cons_zero, Option.some.injEq] at hlv
    simp only [List.get?_cons_succ, List.get?_cons_zero, Option.some.injEq] at hlv'
    subst hlv
    subst hlv'
    have hp0 : p = 0 := by
      dsimp only at hp2
      omega
    subst hp0
    simp only [c2Stream, List.get?_cons_zero, Option.some.injEq] at hr
    rw [← hr]
    decide
  | succ j =>
    simp only [List.get?_cons_succ] at hlv'
    exact absurd hlv' (by simp)

/-- C2, witness: claim_C2 applied to the c2Stream index at start offset
100 with the full-bounds query; the trace [100, 100, 140] is
nondecreasing and the final offset is 100 + 40·3. -/
theorem claim_C2_witness :
    (1 ≤ 2 ∧ 2 ≤ 2
      ∧ c2Stream.length = totalNodesSpec 2 2
      ∧ Seek c2Stream 100 2 2 c2Query
          = .ok ([{ Offset := 8, RefIndex := 0 }, { Offset := 0, RefIndex := 1 }],
                 { offset := 220, trace := [100, 100, 140] }))
    ∧ (List.Chain' (· ≤ ·) ({ offset := 220, trace := [100, 100, 140] } : SeekState).trace
       ∧ ({ offset := 220, trace := [100, 100, 140] } : SeekState).offset
           = 100 + (totalNodesSpec 2 2 : ℤ) * numNodeBytes) :=
  ⟨⟨by decide, by decide, by decide, by decide⟩,
   claim_C2 c2Stream 100 2 2 c2Query (by decide) (by decide) (by decide) c2Stream_wf
     [{ Offset := 8, RefIndex := 0 }, { Offset := 0, RefIndex := 1 }]
     { offset := 220, trace := [100, 100, 140] } (by decide)⟩

end FGB
